import Mathlib

/-!
Verification of the symbol-recognition pipeline of this repository
(`auto-detect/group_green_entities_bbox.py`, `tools/symbol_lib.py`,
`tools/recognize_replace_symbols.py`) against its specification.

Modelling conventions:
* Python floats are modelled by `ℝ` (exact real arithmetic); where a whole
  computation stays in exact rational arithmetic (the point-cloud codec of
  `symbol_lib.py`, descriptor distances) we use `ℚ` so that statements can be
  evaluated by `decide`.
* Python's `round` and numpy's `rint` round half to even; we model them by
  `rhe` / `rheQ` below.
* Mutable arrays (`UnionFind.parent` / `UnionFind.rank`) become lists passed
  through explicitly; `find`, which mutates by path halving, returns the new
  state.  The `while` loop of `find` is modelled with explicit fuel
  `parent.length + 1`; the rank invariant proved below shows this fuel is
  never exhausted, so the model coincides with the source loop.
* Functions that `raise` are modelled with `Except`.
-/

namespace ACad

/-- Round half to even, the behaviour of Python's `round` and numpy's `rint`,
on the rationals. -/
def rheQ (x : ℚ) : ℤ :=
  if Int.fract x = 1/2 then (if Even ⌊x⌋ then ⌊x⌋ else ⌊x⌋ + 1) else round x

/-- Round half to even on the reals. -/
noncomputable def rhe (x : ℝ) : ℤ :=
  if Int.fract x = 1/2 then (if Even ⌊x⌋ then ⌊x⌋ else ⌊x⌋ + 1) else round x

/-- Sort a list by an injective key into a linear order; models Python's
`list.sort(key=...)` / `sorted(key=...)` for the deterministic keys used in
canonicalisation. -/
def sortByKey {α κ : Type*} [LinearOrder κ] [DecidableEq α] (key : α → κ)
    (l : List α) : List α :=
  l.mergeSort (fun a b => decide (key a ≤ key b))

end ACad

namespace ACad.UF

/-- `UnionFind` of `group_green_entities_bbox.py`: `parent` and `rank`
arrays. -/
structure UnionFind where
  parent : List ℕ
  rank : List ℕ

/-- `UnionFind.__init__`: `parent = list(range(n))`, `rank = [0]*n`. -/
def UnionFind.init (n : ℕ) : UnionFind :=
  ⟨List.range n, List.replicate n 0⟩

/-- Read `parent[x]` (out-of-range reads, which cannot happen for the indices
used by the source, default to `x`). -/
def UnionFind.pget (s : UnionFind) (x : ℕ) : ℕ := s.parent.getD x x

/-- Read `rank[x]`. -/
def UnionFind.rget (s : UnionFind) (x : ℕ) : ℕ := s.rank.getD x 0

/-- The loop of `find`: `while parent[x] != x: parent[x] = parent[parent[x]];
x = parent[x]`, with explicit fuel.  Each iteration halves the path and moves
to the grandparent, exactly as the source. -/
def UnionFind.findAux : ℕ → UnionFind → ℕ → ℕ × UnionFind
  | 0, s, x => (x, s)
  | fuel + 1, s, x =>
    let p := s.pget x
    if p = x then (x, s)
    else
      let gp := s.pget p
      findAux fuel ⟨s.parent.set x gp, s.rank⟩ gp

/-- `find(x)`; fuel `parent.length + 1` suffices (proved below via the rank
invariant), so this equals the unbounded source loop. -/
def UnionFind.find (s : UnionFind) (x : ℕ) : ℕ × UnionFind :=
  findAux (s.parent.length + 1) s x

/-- `union(a, b)` with union by rank, exactly as the source. -/
def UnionFind.union (s : UnionFind) (a b : ℕ) : UnionFind :=
  let fa := s.find a
  let ra := fa.1
  let fb := fa.2.find b
  let rb := fb.1
  let s2 := fb.2
  if ra = rb then s2
  else if s2.rget ra < s2.rget rb then ⟨s2.parent.set ra rb, s2.rank⟩
  else if s2.rget rb < s2.rget ra then ⟨s2.parent.set rb ra, s2.rank⟩
  else ⟨s2.parent.set rb ra, s2.rank.set ra (s2.rget ra + 1)⟩

/-- Pure parent-chain chase (no mutation), with fuel; the mathematical root of
`x` used to state correctness of `find`/`union`. -/
def UnionFind.rootAux : ℕ → UnionFind → ℕ → ℕ
  | 0, _, x => x
  | fuel + 1, s, x =>
    let p := s.pget x
    if p = x then x else rootAux fuel s p

/-- The root of `x` in state `s`. -/
def UnionFind.root (s : UnionFind) (x : ℕ) : ℕ := rootAux (s.parent.length + 1) s x

/-- Well-formedness of a union-find state: ranks strictly increase along
parent links.  Established for `init` and preserved by `find` and `union`. -/
structure WF (s : UnionFind) : Prop where
  rank_len : s.rank.length = s.parent.length
  pget_lt : ∀ i, i < s.parent.length → s.pget i < s.parent.length
  rank_lt : ∀ i, i < s.parent.length → s.pget i ≠ i → s.rget i < s.rget (s.pget i)

/-- Termination measure for the parent chase: the number of indices whose rank
is at least `rank x`. -/
def UnionFind.measure (s : UnionFind) (x : ℕ) : ℕ :=
  ((Finset.range s.parent.length).filter (fun i => s.rget x ≤ s.rget i)).card

/-- `union` applied to a list of pairs in order, as the clustering code does. -/
def applyOps (ops : List (ℕ × ℕ)) (s : UnionFind) : UnionFind :=
  ops.foldl (fun t p => t.union p.1 p.2) s

/-- Two elements are connected by a chain of the performed `union(a,b)`
operations. -/
def Connected (ops : List (ℕ × ℕ)) (a b : ℕ) : Prop :=
  Relation.EqvGen (fun x y => (x, y) ∈ ops) a b

end ACad.UF

namespace ACad

/-- 2-d point (Python float pairs, modelled exactly over `ℝ`). -/
abbrev Pt := ℝ × ℝ

/-- `math.hypot`. -/
noncomputable def hypot (x y : ℝ) : ℝ := Real.sqrt (x ^ 2 + y ^ 2)

end ACad

namespace ACad.GG

/-!
Canonicalisation pipeline of `auto-detect/group_green_entities_bbox.py`.
The entity samplers (`_entity_points_and_primitives_xf`) turn every entity
into a list of sampled points plus a list of primitive records; the
functions below operate on those, exactly as `_compute_geom_from_entity`.
-/

/-- A primitive record as produced by `_entity_points_and_primitives_xf`:
`{"type": "LINE", "p0": .., "p1": ..}`, `{"type": "ARC", "center": ..,
"radius": .., "p0": .., "p1": ..}` or `{"type": "CIRCLE", "center": ..,
"radius": ..}`. -/
inductive Prim
  | line (p0 p1 : Pt)
  | arc (center : Pt) (radius : ℝ) (p0 p1 : Pt)
  | circle (center : Pt) (radius : ℝ)

noncomputable instance : DecidableEq Prim := Classical.decEq _

/-- `qkey(x, y, tol)`: raises `ValueError` when `tol <= 0`, otherwise the
quantised bucket key `(round(x/tol), round(y/tol))`. -/
noncomputable def qkey (x y tol : ℝ) : Except String (ℤ × ℤ) :=
  if tol ≤ 0 then .error "tol must be > 0"
  else .ok (rhe (x / tol), rhe (y / tol))

/-- `_qf(v, grid)`: when `grid <= 0.0` the source *substitutes* `grid = 0.01`
and proceeds; then returns `int(round(v / grid))`. -/
noncomputable def _qf (v grid : ℝ) : ℤ :=
  let g := if grid ≤ 0 then (0.01 : ℝ) else grid
  rhe (v / g)

/-- `_normalize_points`: centroid translation to the origin, then scaling so
the maximal distance from the origin is 1 (scale 1 for the empty/degenerate
case).  Returns `(normalized points, centroid, scale)`. -/
noncomputable def _normalize_points (points : List Pt) : List Pt × Pt × ℝ :=
  if points = [] then ([], (0, 0), 1)
  else
    let n : ℕ := points.length
    let cx := (points.map Prod.fst).sum / n
    let cy := (points.map Prod.snd).sum / n
    let shifted := points.map (fun p => (p.1 - cx, p.2 - cy))
    let max_r := shifted.foldl (fun m p => max m (hypot p.1 p.2)) 0
    let max_r := if max_r ≤ 0 then 1 else max_r
    (shifted.map (fun p => (p.1 / max_r, p.2 / max_r)), (cx, cy), max_r)

/-- Accessor: the centroid `(cx, cy)` computed by `_normalize_points`. -/
noncomputable def nCentroid (points : List Pt) : Pt :=
  ((points.map Prod.fst).sum / points.length, (points.map Prod.snd).sum / points.length)

/-- Accessor: the centred points of `_normalize_points`. -/
noncomputable def nShifted (points : List Pt) : List Pt :=
  points.map (fun p => (p.1 - (nCentroid points).1, p.2 - (nCentroid points).2))

/-- Accessor: the running maximum radius of `_normalize_points`. -/
noncomputable def nMaxR (points : List Pt) : ℝ :=
  ((nShifted points).map (fun p => hypot p.1 p.2)).foldl max 0

/-- Accessor: the scale (`max_r`, or 1 in the degenerate case) returned by
`_normalize_points`. -/
noncomputable def nScale (points : List Pt) : ℝ :=
  if nMaxR points ≤ 0 then 1 else nMaxR points

/-- `_quantize_points`: quantise each coordinate with `_qf`, then
`out.sort()` (Python sorts `[int, int]` pairs lexicographically). -/
noncomputable def _quantize_points (points : List Pt) (grid : ℝ) : List (ℤ × ℤ) :=
  sortByKey (fun q => toLex q) (points.map (fun p => (_qf p.1 grid, _qf p.2 grid)))

/-- Tail of the consecutive-duplicate filter of `_compute_geom_from_entity`
(`last` is the previously kept element). -/
def dedupConsecAux (last : ℤ × ℤ) : List (ℤ × ℤ) → List (ℤ × ℤ)
  | [] => []
  | y :: ys => if y = last then dedupConsecAux last ys else y :: dedupConsecAux y ys

/-- The consecutive-duplicate filter building `q_pts_unique`. -/
def dedupConsec : List (ℤ × ℤ) → List (ℤ × ℤ)
  | [] => []
  | x :: xs => x :: dedupConsecAux x xs

/-- A quantised primitive record. -/
inductive QPrim
  | line (p0 p1 : ℤ × ℤ)
  | arc (center : ℤ × ℤ) (radius : ℤ) (p0 p1 : ℤ × ℤ)
  | circle (center : ℤ × ℤ) (radius : ℤ)
deriving DecidableEq

/-- The sort key of `sorted(q_prims, key=lambda d: json.dumps(d, sort_keys=True))`:
the source orders quantised primitives by their serialised canonical form, a
fixed injective total order; we model it by an injective key listing the
fields in the serialisation's key order (`center`, `p0`, `p1`, `radius`,
`type`).  Only that the key is a fixed injective total order matters for
geometry-id equality. -/
def primKey : QPrim → List ℤ
  | .arc c r p0 p1 => [0, c.1, c.2, p0.1, p0.2, p1.1, p1.2, r]
  | .circle c r => [1, c.1, c.2, r]
  | .line p0 p1 => [2, p0.1, p0.2, p1.1, p1.2]

/-- `_normalize_and_quantize_primitives`: apply the same translate+scale as
the point normalisation to every primitive record, then quantise with `_qf`.
A zero `scale` is substituted by 1 (`s = scale if scale != 0 else 1.0`). -/
noncomputable def _normalize_and_quantize_primitives (prims : List Prim)
    (center : Pt) (scale grid : ℝ) : List QPrim :=
  let s := if scale = 0 then 1 else scale
  let qpt : Pt → ℤ × ℤ := fun p =>
    (_qf ((p.1 - center.1) / s) grid, _qf ((p.2 - center.2) / s) grid)
  prims.map fun p =>
    match p with
    | .line p0 p1 => .line (qpt p0) (qpt p1)
    | .arc c r p0 p1 => .arc (qpt c) (_qf (r / s) grid) (qpt p0) (qpt p1)
    | .circle c r => .circle (qpt c) (_qf (r / s) grid)

/-- The canonical serialisation content of `_compute_geom_from_entity`:
`{"points": q_pts_unique, "prims": q_prims_sorted}`.  The geometry id is the
SHA-1 of the deterministic serialisation of this pair, so two symbols get the
same geometry id exactly when their canonical pairs are equal; we reason at
the level of this pair. -/
noncomputable def canonical (points : List Pt) (prims : List Prim) (grid : ℝ) :
    List (ℤ × ℤ) × List QPrim :=
  let np := _normalize_points points
  (dedupConsec (_quantize_points np.1 grid),
   sortByKey primKey (_normalize_and_quantize_primitives prims np.2.1 np.2.2 grid))

/-- Per-type primitive counts of the `stats` dict. -/
structure GeomStats where
  n_points : ℕ
  n_primitives : ℕ
  n_line : ℕ
  n_arc : ℕ
  n_circle : ℕ

/-- The geometry record of `_compute_geom_from_entity` (the fields consumed
by the claims; the fingerprint/histogram fields are separate derived data not
referenced by any claim and are omitted from the record). -/
structure Geom where
  points_q : List (ℤ × ℤ)
  primitives_q : List QPrim
  stats : GeomStats

/-- `_compute_geom_from_entity`, starting from the sampled
points/primitives: returns `None` when the entity yields neither points nor
primitives, else the canonicalised geometry. -/
noncomputable def _compute_geom_from_entity (points : List Pt) (prims : List Prim)
    (grid : ℝ) : Option Geom :=
  if points = [] ∧ prims = [] then none
  else
    let c := canonical points prims grid
    some
      { points_q := c.1
        primitives_q := c.2
        stats :=
          { n_points := points.length
            n_primitives := prims.length
            n_line := (prims.filter fun p => match p with | .line _ _ => true | _ => false).length
            n_arc := (prims.filter fun p => match p with | .arc _ _ _ _ => true | _ => false).length
            n_circle := (prims.filter fun p => match p with | .circle _ _ => true | _ => false).length } }

/-- Candidate geometries of the match loop: entities whose geometry is `None`
are skipped (`if geom is None: continue`) and the scan goes on. -/
noncomputable def candidateGeoms (ents : List (List Pt × List Prim)) (grid : ℝ) :
    List Geom :=
  ents.filterMap (fun e => _compute_geom_from_entity e.1 e.2 grid)

/-- Translate by `(dx, dy)` after uniform scaling by `k`: the action on a
sampled point of transforming the symbol's entities. -/
def affinePt (k dx dy : ℝ) (p : Pt) : Pt := (k * p.1 + dx, k * p.2 + dy)

/-- The action of the same transform on a primitive record (a uniform
positive scale multiplies an arc/circle radius by `k`). -/
def affinePrim (k dx dy : ℝ) : Prim → Prim
  | .line p0 p1 => .line (affinePt k dx dy p0) (affinePt k dx dy p1)
  | .arc c r p0 p1 => .arc (affinePt k dx dy c) (k * r) (affinePt k dx dy p0) (affinePt k dx dy p1)
  | .circle c r => .circle (affinePt k dx dy c) (k * r)

end ACad.GG

namespace ACad.GG

/-!
The bbox merge engine (`bbox_*`, `merge_by_bbox_iterative`,
`refine_and_merge_bboxes`).  Boxes are the 4-tuples `(minx, miny, maxx,
maxy)` of the source, given field names for readability.
-/

/-- An axis-aligned box `(minx, miny, maxx, maxy)`. -/
structure BBox where
  x0 : ℝ
  y0 : ℝ
  x1 : ℝ
  y1 : ℝ

instance : Inhabited BBox := ⟨⟨0, 0, 0, 0⟩⟩

noncomputable instance : DecidableEq BBox := Classical.decEq _

/-- A genuine box: `minx ≤ maxx` and `miny ≤ maxy`.  Every box the pipeline
produces (entity bboxes, padded hulls, unions) satisfies this. -/
def BBox.wf (b : BBox) : Prop := b.x0 ≤ b.x1 ∧ b.y0 ≤ b.y1

/-- `bbox_union`. -/
noncomputable def bbox_union (a b : BBox) : BBox :=
  ⟨min a.x0 b.x0, min a.y0 b.y0, max a.x1 b.x1, max a.y1 b.y1⟩

/-- `bbox_intersects`. -/
def bbox_intersects (a b : BBox) : Prop :=
  ¬(a.x1 < b.x0 ∨ b.x1 < a.x0 ∨ a.y1 < b.y0 ∨ b.y1 < a.y0)

/-- `bbox_contains(outer, inner)`. -/
def bbox_contains (outer inner : BBox) : Prop :=
  outer.x0 ≤ inner.x0 ∧ outer.y0 ≤ inner.y0 ∧ inner.x1 ≤ outer.x1 ∧ inner.y1 ≤ outer.y1

/-- `bbox_min_distance`: the separation along each axis (0 when the
projections overlap), combined with `math.hypot`. -/
noncomputable def bbox_min_distance (a b : BBox) : ℝ :=
  let dx := if a.x1 < b.x0 then b.x0 - a.x1 else if b.x1 < a.x0 then a.x0 - b.x1 else 0
  let dy := if a.y1 < b.y0 then b.y0 - a.y1 else if b.y1 < a.y0 then a.y0 - b.y1 else 0
  hypot dx dy

/-- `bbox_should_merge(a, b, merge_gap, size_ratio)`: when `size_ratio > 0`
the merge is refused unless the area ratio reaches it; then merge iff the
boxes intersect, or `merge_gap > 0` and their minimal distance is below it. -/
noncomputable def bbox_should_merge (a b : BBox) (merge_gap : ℝ) (size_ratio : ℝ) : Prop :=
  (0 < size_ratio →
    let area_a := max ((a.x1 - a.x0) * (a.y1 - a.y0)) 1e-9
    let area_b := max ((b.x1 - b.x0) * (b.y1 - b.y0)) 1e-9
    size_ratio ≤ max area_a area_b / min area_a area_b) ∧
  (bbox_intersects a b ∨ (0 < merge_gap ∧ bbox_min_distance a b < merge_gap))

/-- `compute_bbox_for_entity_bboxes`: `None` for an empty list (the `±inf`
accumulators stay non-finite exactly then), else the padded hull. -/
noncomputable def compute_bbox_for_entity_bboxes (ebbs : List BBox) (pad : ℝ) : Option BBox :=
  match ebbs with
  | [] => none
  | b :: bs =>
    some ⟨(bs.map BBox.x0).foldl min b.x0 - pad, (bs.map BBox.y0).foldl min b.y0 - pad,
          (bs.map BBox.x1).foldl max b.x1 + pad, (bs.map BBox.y1).foldl max b.y1 + pad⟩

/-- `math.isclose(x, y, abs_tol=eps)` (the default `rel_tol=1e-9` applies). -/
def isclose (x y eps : ℝ) : Prop :=
  |x - y| ≤ max (1e-9 * max |x| |y|) eps

/-- `_bbox_close` with its default `eps = 1e-6`. -/
def _bbox_close (a b : BBox) : Prop :=
  isclose a.x0 b.x0 1e-6 ∧ isclose a.y0 b.y0 1e-6 ∧
  isclose a.x1 b.x1 1e-6 ∧ isclose a.y1 b.y1 1e-6

/-- The pair enumeration `for i in range(n): for j in range(i+1, n)`. -/
def allPairs (n : ℕ) : List (ℕ × ℕ) :=
  (List.range n).flatMap (fun i => ((List.range n).filter (fun j => i < j)).map (fun j => (i, j)))

open ACad.UF Classical in
/-- The union pass of `merge_by_bbox_iterative`: union every pair of boxes
satisfying the merge predicate. -/
noncomputable def ufAfterPairs (bboxes : List BBox) (merge_gap size_ratio : ℝ) : UnionFind :=
  (allPairs bboxes.length).foldl
    (fun s ij =>
      if bbox_should_merge (bboxes.getD ij.1 default) (bboxes.getD ij.2 default)
          merge_gap size_ratio
      then s.union ij.1 ij.2 else s)
    (UnionFind.init bboxes.length)

/-- `merged[root].append(i)` on an insertion-ordered association list, as the
`defaultdict` of the source. -/
def insertGroup : List (ℕ × List ℕ) → ℕ → ℕ → List (ℕ × List ℕ)
  | [], r, i => [(r, [i])]
  | (k, g) :: rest, r, i =>
    if k = r then (k, g ++ [i]) :: rest else (k, g) :: insertGroup rest r i

open ACad.UF in
/-- `for i in range(n): merged[uf.find(i)].append(i)`, threading the
path-halving mutation of `find` through the loop. -/
noncomputable def collectGroups (st : UnionFind) (idxs : List ℕ) :
    List (ℕ × List ℕ) × UnionFind :=
  idxs.foldl
    (fun acc i =>
      let fr := acc.2.find i
      (insertGroup acc.1 fr.1 i, fr.2))
    ([], st)

/-- `min(members)` (members lists are nonempty by construction). -/
def listMin : List ℕ → ℕ
  | [] => 0
  | m :: ms => ms.foldl min m

/-- `sorted(members)`. -/
def sortNat (l : List ℕ) : List ℕ := sortByKey id l

/-- `bb = cur_bboxes[members[0]]` then folding `bbox_union` over the rest. -/
noncomputable def boxUnionOver (bboxes : List BBox) (members : List ℕ) : BBox :=
  match sortNat members with
  | [] => default
  | m :: ms => ms.foldl (fun bb i => bbox_union bb (bboxes.getD i default)) (bboxes.getD m default)

/-- number of keys inserted is at most the number of elements processed -/
theorem insertGroup_length_le (acc : List (ℕ × List ℕ)) (r i : ℕ) :
    (insertGroup acc r i).length ≤ acc.length + 1 := by
  induction acc with
  | nil => simp [insertGroup]
  | cons hd tl ih =>
    by_cases h : hd.1 = r
    · simp [insertGroup, h]
    · simpa [insertGroup, h] using Nat.succ_le_succ ih

theorem collectGroups_length_le (idxs : List ℕ) :
    ∀ acc : List (ℕ × List ℕ) × ACad.UF.UnionFind,
      ((idxs.foldl (fun acc i =>
          let fr := acc.2.find i
          (insertGroup acc.1 fr.1 i, fr.2)) acc).1).length ≤ acc.1.length + idxs.length := by
  induction idxs with
  | nil => intro acc; simp
  | cons hd tl ih =>
    intro acc
    refine le_trans (ih _) ?_
    have := insertGroup_length_le acc.1 ((acc.2.find hd).1) hd
    simp only [List.length_cons]
    omega

open ACad.UF in
/-- `merge_by_bbox_iterative`: union-find over the merge predicate, group by
root, replace every group with its union box and repeat until the group
count stops decreasing. -/
noncomputable def merge_by_bbox_iterative (groups : List (List ℕ)) (bboxes : List BBox)
    (merge_gap : ℝ) (size_ratio : ℝ) : List (List ℕ) × List BBox :=
  let n := bboxes.length
  let uf := ufAfterPairs bboxes merge_gap size_ratio
  let merged := (collectGroups uf (List.range n)).1
  if h : merged.length = n then (groups, bboxes)
  else
    let mgs := sortByKey (fun e => listMin e.2) merged
    let new_groups := mgs.map (fun e => ((sortNat e.2).map (fun m => groups.getD m [])).flatten)
    let new_bboxes := mgs.map (fun e => boxUnionOver bboxes e.2)
    merge_by_bbox_iterative new_groups new_bboxes merge_gap size_ratio
termination_by bboxes.length
decreasing_by
  simp_wf
  have hs : (ACad.sortByKey (fun e => listMin e.2) merged).length = merged.length :=
    List.length_mergeSort merged
  have h1 : merged.length ≤ n := by
    simpa using collectGroups_length_le (List.range n) ([], uf)
  have h2 : merged.length < n := lt_of_le_of_ne h1 h
  exact lt_of_le_of_lt (le_of_eq hs) h2

end ACad.GG

namespace ACad.GG

/-- The lexicographic sort key `lambda b: (b[0], b[1], b[2], b[3])` used on
box lists. -/
def bboxKey (b : BBox) : Lex (ℝ × Lex (ℝ × Lex (ℝ × ℝ))) :=
  toLex (b.x0, toLex (b.y0, toLex (b.x1, b.y1)))

/-- Sort a box list by `bboxKey`. -/
noncomputable def sortBBoxes (l : List BBox) : List BBox := sortByKey bboxKey l

open Classical in
/-- One iteration body of the `while True` loop of `refine_and_merge_bboxes`:
merge, tighten every merged box to the padded hull of the member entity boxes
it contains, merge again, and sort. -/
noncomputable def refineStep (all_entity_bboxes : List (ℕ × BBox)) (pad merge_gap : ℝ)
    (cur : List BBox) : List BBox :=
  let dummy_groups := (List.range cur.length).map (fun i => [i])
  let merged := (merge_by_bbox_iterative dummy_groups cur merge_gap 0).2
  let refined := merged.map (fun bb =>
    let inside := (all_entity_bboxes.filter (fun e => bbox_contains bb e.2)).map Prod.snd
    match compute_bbox_for_entity_bboxes inside pad with
    | some nb => nb
    | none => bb)
  let dummy_groups2 := (List.range refined.length).map (fun i => [i])
  sortBBoxes (merge_by_bbox_iterative dummy_groups2 refined merge_gap 0).2

open Classical in
/-- The `while True` loop of `refine_and_merge_bboxes` with the iteration
counter turned into fuel counting down from `max_iters = 50`: run
`refineStep` and stop when the sorted box list is stable (or the cap is hit,
in which case the last computed list is returned). -/
noncomputable def refineLoop (all_entity_bboxes : List (ℕ × BBox)) (pad merge_gap : ℝ) :
    ℕ → List BBox → List BBox
  | 0, cur => cur
  | fuel + 1, cur =>
    let stabilized := refineStep all_entity_bboxes pad merge_gap cur
    if stabilized.length = cur.length ∧ (stabilized.zip cur).Forall (fun q => _bbox_close q.1 q.2)
    then stabilized
    else refineLoop all_entity_bboxes pad merge_gap fuel stabilized

/-- `refine_and_merge_bboxes(initial_bboxes, all_entity_bboxes, pad,
merge_gap)` with its `max_iters = 50` cap. -/
noncomputable def refine_and_merge_bboxes (initial_bboxes : List BBox)
    (all_entity_bboxes : List (ℕ × BBox)) (pad merge_gap : ℝ) : List BBox :=
  refineLoop all_entity_bboxes pad merge_gap 50 (sortBBoxes initial_bboxes)

/-!
The fingerprint-path match loop of `main` (`group_green_entities_bbox.py`):
Hamming distance on 64-bit perceptual hashes, stats tie-break, the
primitive-count-ratio gate and the single-letter text-tag gate.
-/

/-- `int.bit_count`. -/
def popCount (n : ℕ) : ℕ :=
  if n = 0 then 0 else n % 2 + popCount (n / 2)

/-- `_phash_hamming`: phashes are 16-hex-digit strings in the source,
modelled by their 64-bit values (the `except` branch for unparsable strings
cannot trigger in the typed model). -/
def _phash_hamming (a b : ℕ) : ℕ := popCount (a ^^^ b)

/-- The `stats` dict entries consumed by matching. -/
structure PhStats where
  n_points : ℤ
  n_primitives : ℤ
  n_line : ℤ
  n_arc : ℤ
  n_circle : ℤ
deriving DecidableEq

/-- `_stats_similarity_score`: sum of absolute differences of the per-type
primitive counts. -/
def _stats_similarity_score (ref_stats cand_stats : PhStats) : ℤ :=
  |cand_stats.n_primitives - ref_stats.n_primitives| + |cand_stats.n_line - ref_stats.n_line| +
    |cand_stats.n_arc - ref_stats.n_arc| + |cand_stats.n_circle - ref_stats.n_circle|

/-- One legend reference `(rph, rst, rgid, rsig)` of the match loop.  `sig`
is the single-letter text tag, `""` when absent (Python falsy). -/
structure RefItem where
  phash : ℕ
  stats : PhStats
  gid : ℤ
  sig : String
deriving DecidableEq

/-- The candidate side: its fingerprint, stats and text tag. -/
structure CandGeom where
  phash : ℕ
  stats : PhStats
  sig : String
deriving DecidableEq

/-- The fields of the `best` dict that matter to the claims. -/
structure BestMatch where
  dist : ℕ
  stats_score : ℤ
  ref_idx : ℕ
  ref_gid : ℤ
deriving DecidableEq

/-- Python tuple comparison `key < best_key` on `(dist, sscore)`. -/
def keyLt (k1 k2 : ℕ × ℤ) : Prop :=
  k1.1 < k2.1 ∨ (k1.1 = k2.1 ∧ k1.2 < k2.2)

instance (k1 k2 : ℕ × ℤ) : Decidable (keyLt k1 k2) := by
  unfold keyLt; infer_instance

/-- The inner reference loop of the fingerprint match path: for each
reference (enumerated from 1) skip it if the text tags conflict, compute the
Hamming distance and the stats score, skip the reference if both primitive
counts are positive and their ratio `cn / rn` falls outside `[0.5, 2.0]`,
and otherwise keep the reference with the lexicographically smallest
`(dist, sscore)`. -/
def bestRef (cand : CandGeom) (refs : List RefItem) : Option BestMatch :=
  (List.enumFrom 1 refs).foldl
    (fun best ri =>
      let ridx := ri.1
      let r := ri.2
      if r.sig ≠ "" ∧ cand.sig ≠ r.sig then best
      else
        let d := _phash_hamming cand.phash r.phash
        let ss := _stats_similarity_score r.stats cand.stats
        let rn := r.stats.n_primitives
        let cn := cand.stats.n_primitives
        if (0 : ℤ) < rn ∧ (0 : ℤ) < cn ∧ ((cn : ℚ) / (rn : ℚ) < 1/2 ∨ 2 < (cn : ℚ) / (rn : ℚ)) then best
        else
          match best with
          | none => some ⟨d, ss, ridx, r.gid⟩
          | some b => if keyLt (d, ss) (b.dist, b.stats_score) then some ⟨d, ss, ridx, r.gid⟩
                      else some b)
    none

end ACad.GG

namespace ACad.SL

/-!
`tools/symbol_lib.py`: descriptors, Chamfer matching and the point-cloud
codec, plus the cluster match loop of `tools/recognize_replace_symbols.py`
that consumes them.
-/

/-- `SymbolDescriptor`.  `counts` models the Python dict with its
`.get(k, 0)` default-0 reads as a total function. -/
structure SymbolDescriptor where
  counts : String → ℕ
  lengths_q : List ℤ
  angles_q : List ℤ
  radii_q : List ℤ
  size_q : ℤ × ℤ

/-- The inner `list_dist(x, y, w)` of `descriptor_distance`. -/
def list_dist (x y : List ℤ) (w : ℚ) : ℚ :=
  if x = [] ∧ y = [] then 0
  else if x = [] ∨ y = [] then w * 200 + |(x.length : ℚ) - (y.length : ℚ)| * w * 10
  else
    let n := min x.length y.length
    let d := ((List.range n).map (fun i => |((x.getD i 0 : ℤ) : ℚ) - ((y.getD i 0 : ℤ) : ℚ)|)).sum
    (d + |(x.length : ℚ) - (y.length : ℚ)| * 20) * w

/-- `descriptor_distance`. -/
def descriptor_distance (a b : SymbolDescriptor) : ℚ :=
  let score : ℚ :=
    ((["LINE", "CIRCLE", "ARC", "LWPOLYLINE", "POLYLINE", "INSERT"].map
        (fun k => |((a.counts k : ℤ) : ℚ) - ((b.counts k : ℤ) : ℚ)| * 50)).sum)
  score + list_dist a.lengths_q b.lengths_q 1 + list_dist a.radii_q b.radii_q 2 +
    list_dist a.angles_q b.angles_q (1/2) +
    (|((a.size_q.1 : ℤ) : ℚ) - ((b.size_q.1 : ℤ) : ℚ)| +
      |((a.size_q.2 : ℤ) : ℚ) - ((b.size_q.2 : ℤ) : ℚ)|) * 5

/-- Euclidean distance between two points. -/
noncomputable def pdist (p q : Pt) : ℝ := Real.sqrt ((p.1 - q.1) ^ 2 + (p.2 - q.2) ^ 2)

/-- Distance from `p` to its nearest neighbour in the (nonempty) cloud `b`;
the per-row minimum taken by both the `cKDTree` branch and the brute-force
branch of `_mean_nn_distance`. -/
noncomputable def nnDist (p : Pt) : List Pt → ℝ
  | [] => 0
  | q :: qs => (qs.map (pdist p)).foldl min (pdist p q)

open Classical in
/-- `_mean_nn_distance(a, b)`: `None` models the `float('inf')` returned on
an empty input; otherwise the mean nearest-neighbour distance `a -> b`. -/
noncomputable def _mean_nn_distance (a b : List Pt) : Option ℝ :=
  if a = [] ∨ b = [] then none
  else some (((a.map (fun p => nnDist p b)).sum) / (a.length : ℝ))

/-- `chamfer_distance(a, b, symmetric=True)`: `0.5 * (d1 + d2)`, with
infinity (`none`) absorbing. -/
noncomputable def chamfer_distance (points_a points_b : List Pt)
    (symmetric : Bool := true) : Option ℝ :=
  let d1 := _mean_nn_distance points_a points_b
  if !symmetric then d1
  else
    match d1, _mean_nn_distance points_b points_a with
    | some x, some y => some ((1 / 2) * (x + y))
    | _, _ => none

/-- `rotate_points(points, angle_deg)`: rotation by `radians(angle_deg)`. -/
noncomputable def rotate_points (points : List Pt) (angle_deg : ℝ) : List Pt :=
  let rad := angle_deg * Real.pi / 180
  let c := Real.cos rad
  let s := Real.sin rad
  points.map (fun p => (c * p.1 - s * p.2, s * p.1 + c * p.2))

/-- `s < best_score` where scores start at `float('inf')` (`none`). -/
def optLt (x y : Option ℝ) : Prop :=
  match x, y with
  | some a, some b => a < b
  | some _, none => True
  | none, _ => False

/-- `best_chamfer > threshold` with `best_chamfer` possibly `inf`. -/
def optGt (x : Option ℝ) (t : ℝ) : Prop :=
  match x with
  | some a => t < a
  | none => True

open Classical in
/-- `chamfer_best_rotation(template, candidate, angles_deg)`: try every
rotation angle in order and keep `(best_score, best_angle)`, starting from
`(inf, 0.0)` and updating on strict improvement. -/
noncomputable def chamfer_best_rotation (template_points candidate_points : List Pt)
    (angles_deg : List ℝ := [0, 90, 180, 270]) (symmetric : Bool := true) :
    Option ℝ × ℝ :=
  angles_deg.foldl
    (fun best ang =>
      let s := chamfer_distance (rotate_points template_points ang) candidate_points symmetric
      if optLt s best.1 then (s, ang) else best)
    (none, 0)

/-- `np.clip(v, -1.0, 1.0)` on one coordinate. -/
def clip1 (v : ℚ) : ℚ := max (-1) (min v 1)

/-- `(z + 2^15) mod 2^16 - 2^15`: the wrap-around of `astype(np.int16)`. -/
def int16wrap (z : ℤ) : ℤ := (z + 32768) % 65536 - 32768

/-- The record built by `encode_point_cloud`: `n`, `scale` and the quantised
int16 pairs.  The transport `tobytes -> zlib.compress -> base64` and its
inverse `base64 -> zlib.decompress -> frombuffer` are exact mutually inverse
packings (the external libraries' contract) and are modelled as carrying the
integer pairs unchanged; `data = []` corresponds to `data_b64 = ""`. -/
structure EncodedCloud where
  n : ℕ
  scale : ℤ
  data : List (ℤ × ℤ)
deriving DecidableEq

/-- `encode_point_cloud(points, scale=32767)`: clip to `[-1, 1]`, quantise by
`np.rint(p * scale)`, narrow to int16. -/
def encode_point_cloud (points : List (ℚ × ℚ)) (scale : ℤ := 32767) : EncodedCloud :=
  if points = [] then ⟨0, scale, []⟩
  else
    ⟨points.length, scale,
      points.map (fun p =>
        (int16wrap (rheQ (clip1 p.1 * (scale : ℚ))), int16wrap (rheQ (clip1 p.2 * (scale : ℚ)))))⟩

/-- `decode_point_cloud(data)`: an empty or absent payload decodes to the
empty cloud; a zero (falsy) stored scale falls back to 32767; otherwise the
int16 pairs divided by the scale. -/
def decode_point_cloud (d : EncodedCloud) : List (ℚ × ℚ) :=
  let scale : ℤ := if d.scale = 0 then 32767 else d.scale
  if d.n = 0 ∨ d.data = [] then []
  else d.data.map (fun q => (((q.1 : ℚ)) / (scale : ℚ), ((q.2 : ℚ)) / (scale : ℚ)))

/-- The rolling best of the cluster match loop of
`recognize_replace_symbols.py` (`best_name`, `best_coarse`, `best_chamfer`,
`best_angle`; the infinite initial scores are `none`). -/
structure MatchState where
  best_name : Option String
  best_coarse : Option ℚ
  best_chamfer : Option ℝ
  best_angle : ℝ

open Classical in
/-- The per-cluster matching of `recognize_replace_symbols.py` `main`:
coarse-filter the library by `descriptor_distance <= score_threshold`, sort
by score, keep the top `max(1, coarse_topk)`, refine with
`chamfer_best_rotation` over the default angle set, and accept the best
Chamfer candidate iff a name was found and its score is not above
`chamfer_threshold`. -/
noncomputable def matchCluster (library : List (String × SymbolDescriptor))
    (template_points : List (String × List Pt)) (desc : SymbolDescriptor)
    (cand_pts : List Pt) (score_threshold : ℚ) (coarse_topk : ℕ)
    (chamfer_threshold : ℝ) : Option String :=
  let candidates := library.filterMap (fun e =>
    let s := descriptor_distance desc e.2
    if s ≤ score_threshold then some (s, e.1) else none)
  if candidates = [] then none
  else
    let csorted := candidates.mergeSort (fun p q => decide (p.1 ≤ q.1))
    let top := csorted.take (max 1 coarse_topk)
    let fin := top.foldl
      (fun (st : MatchState) ce =>
        match template_points.lookup ce.2 with
        | none => st
        | some tpl =>
          let cb := chamfer_best_rotation tpl cand_pts
          if optLt cb.1 st.best_chamfer then ⟨some ce.2, some ce.1, cb.1, cb.2⟩ else st)
      ⟨none, none, none, 0⟩
    if fin.best_name = none ∨ optGt fin.best_chamfer chamfer_threshold then none
    else fin.best_name

end ACad.SL

namespace ACad.Lib

/-!
`export_legend_geometry_library` (`group_green_entities_bbox.py`): the
content-addressed index `items_by_id`, an insertion-ordered mapping from
geometry id to a library item.  The payload fields written once at creation
(`geom_hash`, `phash`, histograms, `stats`) are abstracted by a type
parameter `π`, and an example-occurrence record (`{"input": .., "gid": ..,
"bbox": ..}`) by `ε`; the claims do not inspect either.  The final
`index_out` write-out lists the items sorted by key — a permutation of the
mapping, which the statements below are about.
-/

/-- One library item: payload, known labels (`descs`), bounded example
history. -/
structure LibItem (π ε : Type*) where
  payload : π
  descs : List String
  examples : List ε
deriving DecidableEq

/-- The per-item update: append the label if it is new, append the example
occurrence, keep only the last 20 examples (`examples[-20:]`). -/
def updateItem {π ε : Type*} (it : LibItem π ε) (desc : String) (ex : ε) : LibItem π ε :=
  let descs := if desc ∈ it.descs then it.descs else it.descs ++ [desc]
  let examples := it.examples ++ [ex]
  let examples := if 20 < examples.length then examples.drop (examples.length - 20) else examples
  ⟨it.payload, descs, examples⟩

/-- Indexing one legend occurrence `(gid, bb, desc)` whose computed geometry
id is `geom_id`: empty descriptions are skipped (`if not desc: continue`); a
missing entry is created (`items_by_id[geom_id] = item`), an existing entry
is updated in place — exactly the loop body of
`export_legend_geometry_library`. -/
def indexOccurrence {π ε : Type*} (items : List (String × LibItem π ε))
    (geom_id : String) (payload : π) (desc : String) (ex : ε) :
    List (String × LibItem π ε) :=
  if desc = "" then items
  else
    let items1 := if (items.lookup geom_id).isSome then items
                  else items ++ [(geom_id, ⟨payload, [], []⟩)]
    items1.map (fun e => if e.1 = geom_id then (e.1, updateItem e.2 desc ex) else e)

end ACad.Lib

/-!
## Theorems

First the verification of `UnionFind`, then the geometry, merge-engine,
matcher, codec and library-index results, and finally the claim theorems.
-/

namespace ACad.UF

theorem getD_set_self {α : Type*} (l : List α) (i : ℕ) (a d : α) (h : i < l.length) :
    (l.set i a).getD i d = a := by
  simp [List.getD_eq_getElem?_getD, List.getElem?_set_self h]

theorem getD_set_ne {α : Type*} (l : List α) {i j : ℕ} (a d : α) (h : i ≠ j) :
    (l.set i a).getD j d = l.getD j d := by
  simp [List.getD_eq_getElem?_getD, List.getElem?_set_ne h]

namespace UnionFind

variable {s : UnionFind}

theorem init_parent_length (n : ℕ) : (init n).parent.length = n := by
  simp [init]

theorem pget_init (n x : ℕ) : (init n).pget x = x := by
  unfold pget init
  rcases lt_or_le x n with h | h
  · simp [List.getD_eq_getElem?_getD, List.getElem?_range h]
  · have hnone : (List.range n)[x]? = none :=
      List.getElem?_eq_none (by simpa using h)
    simp [List.getD_eq_getElem?_getD, hnone]

theorem wf_init (n : ℕ) : WF (init n) := by
  refine ⟨by simp [init], ?_, ?_⟩
  · intro i hi
    rw [pget_init]
    simpa [init] using hi
  · intro i _ hne
    exact absurd (pget_init n i) hne

/-- rank of a state whose `rank` list is unchanged -/
theorem rget_of_rank_eq {s' : UnionFind} (h : s'.rank = s.rank) (x : ℕ) :
    s'.rget x = s.rget x := by
  simp [rget, h]

theorem measure_of_eq {s' : UnionFind} (hlen : s'.parent.length = s.parent.length)
    (hrank : s'.rank = s.rank) (x : ℕ) : s'.measure x = s.measure x := by
  unfold measure
  rw [hlen]
  congr 1
  ext i
  simp [rget_of_rank_eq hrank]

theorem measure_le (x : ℕ) : s.measure x ≤ s.parent.length := by
  simpa using Finset.card_filter_le (Finset.range s.parent.length) _

theorem measure_lt (hw : WF s) {x y : ℕ} (hx : x < s.parent.length)
    (hy : y < s.parent.length) (hr : s.rget x < s.rget y) : s.measure y < s.measure x := by
  apply Finset.card_lt_card
  rw [Finset.ssubset_iff_of_subset]
  · exact ⟨x, by simp [hx], by simp [not_le.mpr hr]⟩
  · intro i hi
    simp only [Finset.mem_filter, Finset.mem_range] at hi ⊢
    exact ⟨hi.1, le_trans hr.le hi.2⟩

/-- a non-root node's parent has strictly larger rank; so does its
grandparent. -/
theorem step_facts (hw : WF s) {x : ℕ} (hx : x < s.parent.length) (hne : s.pget x ≠ x) :
    s.pget x < s.parent.length ∧ s.rget x < s.rget (s.pget x) ∧
      s.pget (s.pget x) < s.parent.length ∧ s.rget x < s.rget (s.pget (s.pget x)) := by
  have hp : s.pget x < s.parent.length := hw.pget_lt x hx
  have hr : s.rget x < s.rget (s.pget x) := hw.rank_lt x hx hne
  have hgp : s.pget (s.pget x) < s.parent.length := hw.pget_lt _ hp
  refine ⟨hp, hr, hgp, ?_⟩
  by_cases hroot : s.pget (s.pget x) = s.pget x
  · rw [hroot]; exact hr
  · exact lt_trans hr (hw.rank_lt _ hp hroot)

theorem rootAux_congr (hw : WF s) :
    ∀ m : ℕ, ∀ x fuel fuel', s.measure x = m → x < s.parent.length →
      s.measure x < fuel → s.measure x < fuel' →
      rootAux fuel s x = rootAux fuel' s x := by
  intro m
  induction m using Nat.strong_induction_on with
  | _ m ih =>
    intro x fuel fuel' hm hx hf hf'
    match fuel, fuel' with
    | 0, _ => omega
    | _ + 1, 0 => omega
    | f + 1, f' + 1 =>
      by_cases hp : s.pget x = x
      · simp [rootAux, hp]
      · have hs := step_facts hw hx hp
        have hlt : s.measure (s.pget x) < m := hm ▸ measure_lt hw hx hs.1 hs.2.1
        simp only [rootAux, hp, if_neg]
        exact ih _ hlt _ f f' rfl hs.1 (by omega) (by omega)

theorem root_eq (hw : WF s) {x : ℕ} (hx : x < s.parent.length) :
    s.root x = if s.pget x = x then x else s.root (s.pget x) := by
  by_cases hp : s.pget x = x
  · simp [root, rootAux, hp]
  · have hs := step_facts hw hx hp
    have hlt : s.measure (s.pget x) < s.measure x := measure_lt hw hx hs.1 hs.2.1
    have h1 : s.root x = rootAux (s.parent.length) s (s.pget x) := by
      simp [root, rootAux, hp]
    rw [h1, if_neg hp]
    exact rootAux_congr hw (s.measure (s.pget x)) _ _ _ rfl hs.1
      (by have := measure_le (s := s) x; omega) (by have := measure_le (s := s) x; omega)

theorem root_of_isRoot {x : ℕ} (h : s.pget x = x) : s.root x = x := by
  simp [root, rootAux, h]

theorem root_isRoot (hw : WF s) :
    ∀ m : ℕ, ∀ x, s.measure x = m → x < s.parent.length →
      s.pget (s.root x) = s.root x ∧ s.root x < s.parent.length := by
  intro m
  induction m using Nat.strong_induction_on with
  | _ m ih =>
    intro x hm hx
    by_cases hp : s.pget x = x
    · rw [root_of_isRoot hp]; exact ⟨hp, hx⟩
    · have hs := step_facts hw hx hp
      have hlt : s.measure (s.pget x) < m := hm ▸ measure_lt hw hx hs.1 hs.2.1
      rw [root_eq hw hx, if_neg hp]
      exact ih _ hlt _ rfl hs.1

theorem root_root (hw : WF s) {x : ℕ} (hx : x < s.parent.length) :
    s.root (s.root x) = s.root x :=
  root_of_isRoot (root_isRoot hw _ x rfl hx).1

end UnionFind

end ACad.UF

namespace ACad.UF

namespace UnionFind

variable {s : UnionFind}

theorem pget_mk_set_self (pl rl : List ℕ) (x v : ℕ) (h : x < pl.length) :
    (UnionFind.mk (pl.set x v) rl).pget x = v :=
  getD_set_self pl x v x h

theorem pget_mk_set_ne (pl rl : List ℕ) {x y : ℕ} (v : ℕ) (h : x ≠ y) :
    (UnionFind.mk (pl.set x v) rl).pget y = (UnionFind.mk pl rl).pget y :=
  getD_set_ne pl v y h

theorem halve_wf (hw : WF s) {x : ℕ} (hx : x < s.parent.length) (hne : s.pget x ≠ x) :
    WF ⟨s.parent.set x (s.pget (s.pget x)), s.rank⟩ := by
  obtain ⟨hp, hr, hgp, hrgp⟩ := step_facts hw hx hne
  constructor
  · simpa [List.length_set] using hw.rank_len
  · intro i hi
    rw [List.length_set] at hi ⊢
    by_cases hix : i = x
    · subst hix
      rw [pget_mk_set_self s.parent s.rank i _ hx]
      exact hgp
    · rw [pget_mk_set_ne s.parent s.rank _ (fun hh => hix hh.symm)]
      exact hw.pget_lt i hi
  · intro i hi hnei
    rw [List.length_set] at hi
    by_cases hix : i = x
    · subst hix
      rw [pget_mk_set_self s.parent s.rank i _ hx] at hnei ⊢
      exact hrgp
    · rw [pget_mk_set_ne s.parent s.rank _ (fun hh => hix hh.symm)] at hnei ⊢
      exact hw.rank_lt i hi hnei

theorem halve_root (hw : WF s) {x : ℕ} (hx : x < s.parent.length) (hne : s.pget x ≠ x) :
    ∀ m y, s.measure y = m → y < s.parent.length →
      (UnionFind.mk (s.parent.set x (s.pget (s.pget x))) s.rank).root y = s.root y := by
  have hw' := halve_wf hw hx hne
  obtain ⟨hp, hr, hgp, hrgp⟩ := step_facts hw hx hne
  have hlen : (UnionFind.mk (s.parent.set x (s.pget (s.pget x))) s.rank).parent.length
      = s.parent.length := by simp [List.length_set]
  have hmeq : ∀ z, (UnionFind.mk (s.parent.set x (s.pget (s.pget x))) s.rank).measure z
      = s.measure z := measure_of_eq hlen rfl
  intro m
  induction m using Nat.strong_induction_on with
  | _ m ih =>
    intro y hm hy
    by_cases hyx : y = x
    · subst hyx
      have hpg : (UnionFind.mk (s.parent.set y (s.pget (s.pget y))) s.rank).pget y
          = s.pget (s.pget y) := pget_mk_set_self s.parent s.rank y _ hx
      have hgpney : s.pget (s.pget y) ≠ y := by
        intro hcontra
        rw [hcontra] at hrgp
        exact lt_irrefl _ hrgp
      rw [root_eq hw' (hlen ▸ hy), hpg, if_neg hgpney]
      have hrec : (UnionFind.mk (s.parent.set y (s.pget (s.pget y))) s.rank).root
          (s.pget (s.pget y)) = s.root (s.pget (s.pget y)) := by
        refine ih _ ?_ _ rfl hgp
        rw [← hm]
        exact measure_lt hw hy hgp hrgp
      rw [hrec]
      have h1 : s.root y = s.root (s.pget y) := by
        rw [root_eq hw hy, if_neg hne]
      by_cases hq : s.pget (s.pget y) = s.pget y
      · rw [h1, hq]
      · rw [h1, root_eq hw hp, if_neg hq]
    · have hpg : (UnionFind.mk (s.parent.set x (s.pget (s.pget x))) s.rank).pget y
          = s.pget y := pget_mk_set_ne s.parent s.rank _ (fun hh => hyx hh.symm)
      by_cases hq : s.pget y = y
      · rw [root_eq hw' (hlen ▸ hy), hpg, if_pos hq, root_of_isRoot hq]
      · have hply : s.pget y < s.parent.length := hw.pget_lt y hy
        have hrly : s.rget y < s.rget (s.pget y) := hw.rank_lt y hy hq
        rw [root_eq hw' (hlen ▸ hy), hpg, if_neg hq]
        have hrec : (UnionFind.mk (s.parent.set x (s.pget (s.pget x))) s.rank).root (s.pget y)
            = s.root (s.pget y) := by
          refine ih _ ?_ _ rfl hply
          rw [← hm]
          exact measure_lt hw hy hply hrly
        rw [hrec, root_eq hw hy, if_neg hq]

theorem findAux_spec :
    ∀ fuel (s : UnionFind) (x : ℕ), WF s → x < s.parent.length → s.measure x < fuel →
      (findAux fuel s x).1 = s.root x ∧ WF (findAux fuel s x).2 ∧
      (findAux fuel s x).2.parent.length = s.parent.length ∧
      (findAux fuel s x).2.rank = s.rank ∧
      ∀ y, y < s.parent.length → (findAux fuel s x).2.root y = s.root y := by
  intro fuel
  induction fuel with
  | zero => intro s x hw hx hm; omega
  | succ f ih =>
    intro s x hw hx hm
    by_cases hp : s.pget x = x
    · rw [show findAux (f + 1) s x = (x, s) by simp [findAux, hp]]
      exact ⟨(root_of_isRoot hp).symm, hw, rfl, rfl, fun y _ => rfl⟩
    · obtain ⟨hpl, hrl, hgp, hrgp⟩ := step_facts hw hx hp
      have hw' := halve_wf hw hx hp
      have hlen' : (UnionFind.mk (s.parent.set x (s.pget (s.pget x))) s.rank).parent.length
          = s.parent.length := by simp [List.length_set]
      have hmeq := measure_of_eq hlen' (rfl :
        (UnionFind.mk (s.parent.set x (s.pget (s.pget x))) s.rank).rank = s.rank)
      have hstep : findAux (f + 1) s x
          = findAux f ⟨s.parent.set x (s.pget (s.pget x)), s.rank⟩ (s.pget (s.pget x)) := by
        simp [findAux, hp]
      have hm' : (UnionFind.mk (s.parent.set x (s.pget (s.pget x))) s.rank).measure
          (s.pget (s.pget x)) < f := by
        rw [hmeq]
        have := measure_lt hw hx hgp hrgp
        omega
      have hx' : s.pget (s.pget x)
          < (UnionFind.mk (s.parent.set x (s.pget (s.pget x))) s.rank).parent.length := by
        rw [hlen']; exact hgp
      obtain ⟨ih1, ih2, ih3, ih4, ih5⟩ := ih _ _ hw' hx' hm'
      rw [hstep]
      refine ⟨?_, ih2, by rw [ih3, hlen'], ih4, ?_⟩
      · rw [ih1, halve_root hw hx hp _ _ rfl hgp]
        have h1 : s.root x = s.root (s.pget x) := by
          rw [root_eq hw hx, if_neg hp]
        by_cases hq : s.pget (s.pget x) = s.pget x
        · rw [h1, hq]
        · rw [h1, root_eq hw hpl, if_neg hq]
      · intro y hy
        rw [ih5 y (by rw [hlen']; exact hy), halve_root hw hx hp _ _ rfl hy]

theorem find_spec (hw : WF s) {x : ℕ} (hx : x < s.parent.length) :
    (s.find x).1 = s.root x ∧ WF (s.find x).2 ∧
    (s.find x).2.parent.length = s.parent.length ∧ (s.find x).2.rank = s.rank ∧
    ∀ y, y < s.parent.length → (s.find x).2.root y = s.root y :=
  findAux_spec _ s x hw hx (by have := measure_le (s := s) x; omega)

end UnionFind

end ACad.UF

namespace ACad.UF

namespace UnionFind

variable {s : UnionFind}

theorem rget_mk_set_self (pl rl : List ℕ) (x v : ℕ) (h : x < rl.length) :
    (UnionFind.mk pl (rl.set x v)).rget x = v :=
  getD_set_self rl x v 0 h

theorem rget_mk_set_ne (pl rl : List ℕ) {x y : ℕ} (v : ℕ) (h : x ≠ y) :
    (UnionFind.mk pl (rl.set x v)).rget y = (UnionFind.mk pl rl).rget y :=
  getD_set_ne rl v 0 h

/-- Attaching the root `ra` below the root `rb` of strictly larger rank
preserves the invariant. -/
theorem link_wf_lt (hw : WF s) {ra rb : ℕ} (hra : ra < s.parent.length)
    (hrb : rb < s.parent.length) (hrk : s.rget ra < s.rget rb) :
    WF ⟨s.parent.set ra rb, s.rank⟩ := by
  constructor
  · simpa [List.length_set] using hw.rank_len
  · intro i hi
    rw [List.length_set] at hi ⊢
    by_cases hix : i = ra
    · subst hix
      rw [pget_mk_set_self s.parent s.rank i _ hra]
      exact hrb
    · rw [pget_mk_set_ne s.parent s.rank _ (fun hh => hix hh.symm)]
      exact hw.pget_lt i hi
  · intro i hi hnei
    rw [List.length_set] at hi
    by_cases hix : i = ra
    · subst hix
      rw [pget_mk_set_self s.parent s.rank i _ hra] at hnei ⊢
      exact hrk
    · rw [pget_mk_set_ne s.parent s.rank _ (fun hh => hix hh.symm)] at hnei ⊢
      exact hw.rank_lt i hi hnei

/-- Attaching root `rb` below root `ra` of equal rank and then incrementing
`rank[ra]` preserves the invariant. -/
theorem link_wf_eq (hw : WF s) {ra rb : ℕ} (hra : ra < s.parent.length)
    (hrb : rb < s.parent.length) (heq : s.rget rb = s.rget ra) (hne : ra ≠ rb)
    (hrootA : s.pget ra = ra) :
    WF ⟨s.parent.set rb ra, s.rank.set ra (s.rget ra + 1)⟩ := by
  have hralen : ra < s.rank.length := by rw [hw.rank_len]; exact hra
  have hpget_mk : ∀ (pl rl : List ℕ) (y : ℕ), (UnionFind.mk pl rl).pget y = pl.getD y y :=
    fun _ _ _ => rfl
  have hrget_mk : ∀ (pl rl : List ℕ) (y : ℕ), (UnionFind.mk pl rl).rget y = rl.getD y 0 :=
    fun _ _ _ => rfl
  constructor
  · simp [List.length_set, hw.rank_len]
  · intro i hi
    rw [List.length_set] at hi ⊢
    rw [hpget_mk]
    by_cases hix : i = rb
    · subst hix
      rw [getD_set_self _ _ _ _ hrb]
      exact hra
    · rw [getD_set_ne _ _ _ (fun hh => hix hh.symm)]
      exact hw.pget_lt i hi
  · intro i hi hnei
    rw [List.length_set] at hi
    rw [hpget_mk] at hnei
    simp only [hpget_mk, hrget_mk]
    by_cases hirb : i = rb
    · subst hirb
      rw [getD_set_self _ _ _ _ hrb] at hnei ⊢
      rw [getD_set_ne _ _ _ hne, getD_set_self _ _ _ _ hralen]
      show s.rget i < s.rget ra + 1
      rw [heq]
      omega
    · rw [getD_set_ne _ _ _ (fun hh => hirb hh.symm)] at hnei ⊢
      by_cases hira : i = ra
      · subst hira
        exact absurd hrootA hnei
      · rw [getD_set_ne _ _ _ (fun hh => hira hh.symm)]
        by_cases hpra : s.parent.getD i i = ra
        · rw [hpra, getD_set_self _ _ _ _ hralen]
          have h2 := hw.rank_lt i hi hnei
          rw [show s.pget i = ra from hpra] at h2
          show s.rget i < s.rget ra + 1
          omega
        · rw [getD_set_ne _ _ _ (fun hh => hpra hh.symm)]
          exact hw.rank_lt i hi hnei

/-- Linking root `rb` below root `ra` redirects the classes of `rb` to `ra`
and leaves every other root unchanged — whatever the new rank array is, as
long as the new state is well-formed. -/
theorem link_root (hw : WF s) {ra rb : ℕ} {s' : UnionFind}
    (hra : ra < s.parent.length) (hrb : rb < s.parent.length)
    (hrootA : s.pget ra = ra) (hrootB : s.pget rb = rb) (hne : ra ≠ rb)
    (hp : s'.parent = s.parent.set rb ra) (hw' : WF s') :
    ∀ m y, s'.measure y = m → y < s.parent.length →
      s'.root y = if s.root y = rb then ra else s.root y := by
  have hlen : s'.parent.length = s.parent.length := by rw [hp, List.length_set]
  have hpgetrb : s'.pget rb = ra := by
    show s'.parent.getD rb rb = ra
    rw [hp]
    exact getD_set_self _ _ _ _ hrb
  have hpgetne : ∀ y, y ≠ rb → s'.pget y = s.pget y := by
    intro y hy
    show s'.parent.getD y y = s.parent.getD y y
    rw [hp]
    exact getD_set_ne _ _ _ (fun hh => hy hh.symm)
  intro m
  induction m using Nat.strong_induction_on with
  | _ m ih =>
    intro y hm hy
    by_cases hyrb : y = rb
    · subst hyrb
      rw [root_eq hw' (hlen ▸ hy), hpgetrb, if_neg hne]
      have hroot' : s'.pget ra = ra := by
        rw [hpgetne ra hne]
        exact hrootA
      rw [root_of_isRoot hroot', root_of_isRoot hrootB, if_pos rfl]
    · by_cases hq : s.pget y = y
      · rw [root_eq hw' (hlen ▸ hy), hpgetne y hyrb, if_pos hq, root_of_isRoot hq,
          if_neg hyrb]
      · have hply := hw.pget_lt y hy
        have hrly := hw.rank_lt y hy hq
        have hlt : s'.measure (s.pget y) < m := by
          rw [← hm]
          refine measure_lt hw' (hlen ▸ hy) (hlen ▸ hply) ?_
          have := hw'.rank_lt y (hlen ▸ hy) (by rw [hpgetne y hyrb]; exact hq)
          rw [hpgetne y hyrb] at this
          exact this
        rw [root_eq hw' (hlen ▸ hy), hpgetne y hyrb, if_neg hq,
          ih _ hlt (s.pget y) rfl hply, root_eq hw hy, if_neg hq]

end UnionFind

end ACad.UF

namespace ACad.UF

namespace UnionFind

variable {s : UnionFind}

theorem union_cases (s : UnionFind) (a b : ℕ) :
    s.union a b =
      (if (s.find a).1 = ((s.find a).2.find b).1 then ((s.find a).2.find b).2
       else if ((s.find a).2.find b).2.rget (s.find a).1
           < ((s.find a).2.find b).2.rget ((s.find a).2.find b).1 then
         ⟨((s.find a).2.find b).2.parent.set (s.find a).1 ((s.find a).2.find b).1,
          ((s.find a).2.find b).2.rank⟩
       else if ((s.find a).2.find b).2.rget ((s.find a).2.find b).1
           < ((s.find a).2.find b).2.rget (s.find a).1 then
         ⟨((s.find a).2.find b).2.parent.set ((s.find a).2.find b).1 (s.find a).1,
          ((s.find a).2.find b).2.rank⟩
       else
         ⟨((s.find a).2.find b).2.parent.set ((s.find a).2.find b).1 (s.find a).1,
          ((s.find a).2.find b).2.rank.set (s.find a).1
            (((s.find a).2.find b).2.rget (s.find a).1 + 1)⟩) := rfl

/-- The complete effect of `union(a, b)` on the partition: well-formedness
and lengths are preserved, and the root function afterwards merges exactly
the classes of `a` and `b`, sending both to a single new representative. -/
theorem union_spec (hw : WF s) {a b : ℕ} (ha : a < s.parent.length)
    (hb : b < s.parent.length) :
    WF (s.union a b) ∧ (s.union a b).parent.length = s.parent.length ∧
    ∃ r0, (r0 = s.root a ∨ r0 = s.root b) ∧
      ∀ y, y < s.parent.length →
        (s.union a b).root y =
          if s.root y = s.root a ∨ s.root y = s.root b then r0 else s.root y := by
  obtain ⟨hfa1, hfa2, hfa3, hfa4, hfa5⟩ := find_spec hw ha
  obtain ⟨hfb1, hfb2, hfb3, hfb4, hfb5⟩ :=
    find_spec (s := (s.find a).2) hfa2 (x := b) (by rw [hfa3]; exact hb)
  rw [union_cases]
  set ra := (s.find a).1 with hra0
  set rb := ((s.find a).2.find b).1 with hrb0
  set s2 := ((s.find a).2.find b).2 with hs20
  have hram : ra = s.root a := hfa1
  have hrbm : rb = s.root b := by rw [hfb1, hfa5 b hb]
  have hlen2 : s2.parent.length = s.parent.length := by rw [hfb3, hfa3]
  have hroots2 : ∀ y, y < s.parent.length → s2.root y = s.root y := fun y hy => by
    rw [hfb5 y (by rw [hfa3]; exact hy), hfa5 y hy]
  have hralt : ra < s.parent.length := by
    rw [hram]; exact (root_isRoot hw _ a rfl ha).2
  have hrblt : rb < s.parent.length := by
    rw [hrbm]; exact (root_isRoot hw _ b rfl hb).2
  have hpra : s2.pget ra = ra := by
    have h1 := (root_isRoot hfb2 _ a rfl (by rw [hlen2]; exact ha)).1
    rwa [hroots2 a ha, ← hram] at h1
  have hprb : s2.pget rb = rb := by
    have h1 := (root_isRoot hfb2 _ b rfl (by rw [hlen2]; exact hb)).1
    rwa [hroots2 b hb, ← hrbm] at h1
  split_ifs with h1 h2 h3
  · -- ra = rb: already same set, state s2 returned
    refine ⟨hfb2, hlen2, ra, Or.inl hram, fun y hy => ?_⟩
    rw [hroots2 y hy]
    by_cases hc : s.root y = s.root a ∨ s.root y = s.root b
    · rw [if_pos hc]
      rcases hc with hc | hc
      · rw [hc, hram]
      · rw [hc, ← hrbm, ← h1, hram]
    · rw [if_neg hc]
  · -- rank[ra] < rank[rb]: parent[ra] = rb
    have hw' : WF (⟨s2.parent.set ra rb, s2.rank⟩ : UnionFind) :=
      link_wf_lt hfb2 (by rw [hlen2]; exact hralt) (by rw [hlen2]; exact hrblt) h2
    have hlk := @link_root s2 hfb2 rb ra ⟨s2.parent.set ra rb, s2.rank⟩
      (by rw [hlen2]; exact hrblt)
      (by rw [hlen2]; exact hralt) hprb hpra (fun hh => h1 hh.symm) rfl hw'
    refine ⟨hw', by simp [List.length_set, hlen2], rb, Or.inr hrbm, fun y hy => ?_⟩
    rw [hlk _ y rfl (by rw [hlen2]; exact hy), hroots2 y hy]
    by_cases hca : s.root y = s.root a
    · rw [if_pos (by rw [hram]; exact hca), if_pos (Or.inl hca)]
    · rw [if_neg (by rw [hram]; exact hca)]
      by_cases hcb : s.root y = s.root b
      · rw [if_pos (Or.inr hcb), hcb, hrbm]
      · rw [if_neg (by intro hc; rcases hc with hc | hc; exact hca hc; exact hcb hc)]
  · -- rank[rb] < rank[ra]: parent[rb] = ra
    have hw' : WF (⟨s2.parent.set rb ra, s2.rank⟩ : UnionFind) :=
      @link_wf_lt s2 hfb2 rb ra (by rw [hlen2]; exact hrblt)
        (by rw [hlen2]; exact hralt) h3
    have hlk := @link_root s2 hfb2 ra rb ⟨s2.parent.set rb ra, s2.rank⟩
      (by rw [hlen2]; exact hralt)
      (by rw [hlen2]; exact hrblt) hpra hprb h1 rfl hw'
    refine ⟨hw', by simp [List.length_set, hlen2], ra, Or.inl hram, fun y hy => ?_⟩
    rw [hlk _ y rfl (by rw [hlen2]; exact hy), hroots2 y hy]
    by_cases hcb : s.root y = s.root b
    · rw [if_pos (by rw [hrbm]; exact hcb), if_pos (Or.inr hcb)]
    · rw [if_neg (by rw [hrbm]; exact hcb)]
      by_cases hca : s.root y = s.root a
      · rw [if_pos (Or.inl hca), hca, hram]
      · rw [if_neg (by intro hc; rcases hc with hc | hc; exact hca hc; exact hcb hc)]
  · -- equal ranks: parent[rb] = ra, rank[ra] += 1
    have heq : s2.rget rb = s2.rget ra := le_antisymm (not_lt.mp h2) (not_lt.mp h3)
    have hw' : WF (⟨s2.parent.set rb ra, s2.rank.set ra (s2.rget ra + 1)⟩ : UnionFind) :=
      link_wf_eq hfb2 (by rw [hlen2]; exact hralt) (by rw [hlen2]; exact hrblt) heq h1 hpra
    have hlk := @link_root s2 hfb2 ra rb ⟨s2.parent.set rb ra, s2.rank.set ra (s2.rget ra + 1)⟩
      (by rw [hlen2]; exact hralt) (by rw [hlen2]; exact hrblt) hpra hprb h1 rfl hw'
    refine ⟨hw', by simp [List.length_set, hlen2], ra, Or.inl hram, fun y hy => ?_⟩
    rw [hlk _ y rfl (by rw [hlen2]; exact hy), hroots2 y hy]
    by_cases hcb : s.root y = s.root b
    · rw [if_pos (by rw [hrbm]; exact hcb), if_pos (Or.inr hcb)]
    · rw [if_neg (by rw [hrbm]; exact hcb)]
      by_cases hca : s.root y = s.root a
      · rw [if_pos (Or.inl hca), hca, hram]
      · rw [if_neg (by intro hc; rcases hc with hc | hc; exact hca hc; exact hcb hc)]

end UnionFind

end ACad.UF

namespace ACad.UF

namespace UnionFind

variable {s : UnionFind}

theorem union_wf (hw : WF s) {a b : ℕ} (ha : a < s.parent.length)
    (hb : b < s.parent.length) : WF (s.union a b) :=
  (union_spec hw ha hb).1

theorem union_length (hw : WF s) {a b : ℕ} (ha : a < s.parent.length)
    (hb : b < s.parent.length) : (s.union a b).parent.length = s.parent.length :=
  (union_spec hw ha hb).2.1

/-- `union(a, b)` merges exactly the classes of `a` and `b`. -/
theorem union_root_iff (hw : WF s) {a b x y : ℕ} (ha : a < s.parent.length)
    (hb : b < s.parent.length) (hx : x < s.parent.length) (hy : y < s.parent.length) :
    ((s.union a b).root x = (s.union a b).root y ↔
      (s.root x = s.root y ∨ (s.root x = s.root a ∧ s.root y = s.root b) ∨
        (s.root x = s.root b ∧ s.root y = s.root a))) := by
  obtain ⟨-, -, r0, hr0, hform⟩ := union_spec hw ha hb
  rw [hform x hx, hform y hy]
  by_cases hcx : s.root x = s.root a ∨ s.root x = s.root b
  · by_cases hcy : s.root y = s.root a ∨ s.root y = s.root b
    · rw [if_pos hcx, if_pos hcy]
      constructor
      · intro _
        rcases hcx with hcx | hcx <;> rcases hcy with hcy | hcy
        · exact Or.inl (hcx.trans hcy.symm)
        · exact Or.inr (Or.inl ⟨hcx, hcy⟩)
        · exact Or.inr (Or.inr ⟨hcx, hcy⟩)
        · exact Or.inl (hcx.trans hcy.symm)
      · intro _
        rfl
    · rw [if_pos hcx, if_neg hcy]
      constructor
      · intro he
        exfalso
        apply hcy
        rcases hr0 with hr0 | hr0
        · exact Or.inl (by rw [← he]; exact hr0)
        · exact Or.inr (by rw [← he]; exact hr0)
      · intro hd
        exfalso
        rcases hd with hd | hd | hd
        · exact hcy (hd ▸ hcx)
        · exact hcy (Or.inr hd.2)
        · exact hcy (Or.inl hd.2)
  · by_cases hcy : s.root y = s.root a ∨ s.root y = s.root b
    · rw [if_neg hcx, if_pos hcy]
      constructor
      · intro he
        exfalso
        apply hcx
        rcases hr0 with hr0 | hr0
        · exact Or.inl (by rw [he]; exact hr0)
        · exact Or.inr (by rw [he]; exact hr0)
      · intro hd
        exfalso
        rcases hd with hd | hd | hd
        · exact hcx (hd.symm ▸ hcy)
        · exact hcx (Or.inl hd.1)
        · exact hcx (Or.inr hd.1)
    · rw [if_neg hcx, if_neg hcy]
      constructor
      · exact Or.inl
      · intro hd
        rcases hd with hd | hd | hd
        · exact hd
        · exact absurd (Or.inl hd.1) hcx
        · exact absurd (Or.inr hd.1) hcx

theorem union_preserves_root_eq (hw : WF s) {a b x y : ℕ} (ha : a < s.parent.length)
    (hb : b < s.parent.length) (hx : x < s.parent.length) (hy : y < s.parent.length)
    (h : s.root x = s.root y) : (s.union a b).root x = (s.union a b).root y :=
  (union_root_iff hw ha hb hx hy).mpr (Or.inl h)

theorem union_makes_root_eq (hw : WF s) {a b : ℕ} (ha : a < s.parent.length)
    (hb : b < s.parent.length) : (s.union a b).root a = (s.union a b).root b :=
  (union_root_iff hw ha hb ha hb).mpr (Or.inr (Or.inl ⟨rfl, rfl⟩))

theorem root_init (n x : ℕ) : (init n).root x = x :=
  root_of_isRoot (pget_init n x)

theorem wf_mk_parent_rank : WF s → WF ⟨s.parent, s.rank⟩ := fun h => h

end UnionFind

theorem applyOps_append (ops1 ops2 : List (ℕ × ℕ)) (s : UnionFind) :
    applyOps (ops1 ++ ops2) s = applyOps ops2 (applyOps ops1 s) := by
  simp [applyOps, List.foldl_append]

theorem applyOps_wf_length (ops : List (ℕ × ℕ)) :
    ∀ s : UnionFind, WF s → (∀ p ∈ ops, p.1 < s.parent.length ∧ p.2 < s.parent.length) →
      WF (applyOps ops s) ∧ (applyOps ops s).parent.length = s.parent.length := by
  induction ops with
  | nil => intro s hw _; exact ⟨hw, rfl⟩
  | cons op rest ih =>
    intro s hw hops
    have h1 := hops op (List.mem_cons_self op rest)
    have hw1 := UnionFind.union_wf hw h1.1 h1.2
    have hl1 := UnionFind.union_length hw h1.1 h1.2
    have hrest : ∀ p ∈ rest, p.1 < (s.union op.1 op.2).parent.length ∧
        p.2 < (s.union op.1 op.2).parent.length := by
      intro p hp
      rw [hl1]
      exact hops p (List.mem_cons_of_mem op hp)
    obtain ⟨hw2, hl2⟩ := ih (s.union op.1 op.2) hw1 hrest
    refine ⟨by simpa [applyOps] using hw2, ?_⟩
    simp only [applyOps, List.foldl_cons] at hl2 ⊢
    rw [hl2, hl1]

theorem connected_mono {ops1 ops2 : List (ℕ × ℕ)} (hsub : ∀ p ∈ ops1, p ∈ ops2)
    {x y : ℕ} (h : Connected ops1 x y) : Connected ops2 x y := by
  induction h with
  | rel u v huv => exact Relation.EqvGen.rel u v (hsub _ huv)
  | refl u => exact Relation.EqvGen.refl u
  | symm u v _ ih => exact Relation.EqvGen.symm u v ih
  | trans u v w _ _ ih1 ih2 => exact Relation.EqvGen.trans u v w ih1 ih2

theorem connected_refl (ops : List (ℕ × ℕ)) (x : ℕ) : Connected ops x x :=
  Relation.EqvGen.refl x

theorem connected_symm {ops : List (ℕ × ℕ)} {x y : ℕ} (h : Connected ops x y) :
    Connected ops y x :=
  Relation.EqvGen.symm x y h

theorem connected_trans {ops : List (ℕ × ℕ)} {x y z : ℕ} (h1 : Connected ops x y)
    (h2 : Connected ops y z) : Connected ops x z :=
  Relation.EqvGen.trans x y z h1 h2

theorem connected_nil {x y : ℕ} : Connected [] x y ↔ x = y := by
  constructor
  · intro h
    induction h with
    | rel u v huv => exact absurd huv (List.not_mem_nil _)
    | refl u => rfl
    | symm u v _ ih => exact ih.symm
    | trans u v w _ _ ih1 ih2 => exact ih1.trans ih2
  · rintro rfl
    exact connected_refl [] x

theorem connected_append_single (ops : List (ℕ × ℕ)) (a b x y : ℕ) :
    Connected (ops ++ [(a, b)]) x y ↔
      (Connected ops x y ∨ (Connected ops x a ∧ Connected ops y b) ∨
        (Connected ops x b ∧ Connected ops y a)) := by
  constructor
  · intro h
    induction h with
    | rel u v huv =>
      rcases List.mem_append.mp huv with hm | hm
      · exact Or.inl (Relation.EqvGen.rel u v hm)
      · simp only [List.mem_singleton, Prod.mk.injEq] at hm
        exact Or.inr (Or.inl ⟨hm.1 ▸ connected_refl ops a, hm.2 ▸ connected_refl ops b⟩)
    | refl u => exact Or.inl (connected_refl ops u)
    | symm u v _ ih =>
      rcases ih with ih | ih | ih
      · exact Or.inl (connected_symm ih)
      · exact Or.inr (Or.inr ⟨ih.2, ih.1⟩)
      · exact Or.inr (Or.inl ⟨ih.2, ih.1⟩)
    | trans u v w _ _ ih1 ih2 =>
      rcases ih1 with ih1 | ih1 | ih1 <;> rcases ih2 with ih2 | ih2 | ih2
      · exact Or.inl (connected_trans ih1 ih2)
      · exact Or.inr (Or.inl ⟨connected_trans ih1 ih2.1, ih2.2⟩)
      · exact Or.inr (Or.inr ⟨connected_trans ih1 ih2.1, ih2.2⟩)
      · exact Or.inr (Or.inl ⟨ih1.1, connected_trans (connected_symm ih2) ih1.2⟩)
      · exact Or.inr (Or.inl ⟨ih1.1, ih2.2⟩)
      · exact Or.inl (connected_trans ih1.1 (connected_symm ih2.2))
      · exact Or.inr (Or.inr ⟨ih1.1, connected_trans (connected_symm ih2) ih1.2⟩)
      · exact Or.inl (connected_trans ih1.1 (connected_symm ih2.2))
      · exact Or.inl (connected_trans ih1.1 (connected_trans (connected_symm ih2.1)
          (connected_trans ih1.2 (connected_symm ih2.2))))
  · intro h
    have hmono : ∀ p ∈ ops, p ∈ ops ++ [(a, b)] := fun p hp => List.mem_append_left _ hp
    have hab : Connected (ops ++ [(a, b)]) a b :=
      Relation.EqvGen.rel a b (List.mem_append_right _ (List.mem_singleton.mpr rfl))
    rcases h with h | h | h
    · exact connected_mono hmono h
    · exact connected_trans (connected_mono hmono h.1)
        (connected_trans hab (connected_symm (connected_mono hmono h.2)))
    · exact connected_trans (connected_mono hmono h.1)
        (connected_trans (connected_symm hab) (connected_symm (connected_mono hmono h.2)))

/-- After any sequence of unions starting from `init n`, two indices have the
same root exactly when they are connected by a chain of the performed
unions. -/
theorem applyOps_root_iff_connected (ops : List (ℕ × ℕ)) (n : ℕ)
    (hops : ∀ p ∈ ops, p.1 < n ∧ p.2 < n) :
    ∀ x y, x < n → y < n →
      ((applyOps ops (UnionFind.init n)).root x = (applyOps ops (UnionFind.init n)).root y ↔
        Connected ops x y) := by
  induction ops using List.reverseRecOn with
  | nil =>
    intro x y hx hy
    simp only [applyOps, List.foldl_nil]
    rw [UnionFind.root_init, UnionFind.root_init, connected_nil]
  | append_singleton rest op ih =>
    obtain ⟨a, b⟩ := op
    intro x y hx hy
    have hsub : ∀ p ∈ rest, p.1 < n ∧ p.2 < n := fun p hp =>
      hops p (List.mem_append_left _ hp)
    have hop := hops (a, b) (List.mem_append_right _ (List.mem_singleton.mpr rfl))
    obtain ⟨hwr, hlr⟩ := applyOps_wf_length rest (UnionFind.init n) (UnionFind.wf_init n)
      (by simpa [UnionFind.init_parent_length] using hsub)
    have hlr' : (applyOps rest (UnionFind.init n)).parent.length = n := by
      rw [hlr, UnionFind.init_parent_length]
    rw [applyOps_append]
    have hchar := UnionFind.union_root_iff (s := applyOps rest (UnionFind.init n)) hwr
      (a := a) (b := b) (by rw [hlr']; exact hop.1) (by rw [hlr']; exact hop.2)
      (x := x) (y := y) (by rw [hlr']; exact hx) (by rw [hlr']; exact hy)
    have hrw : applyOps [(a, b)] (applyOps rest (UnionFind.init n))
        = (applyOps rest (UnionFind.init n)).union a b := by
      simp [applyOps]
    rw [hrw, hchar, ih hsub x y hx hy, ih hsub x a hx hop.1, ih hsub y b hy hop.2,
      ih hsub x b hx hop.2, ih hsub y a hy hop.1, connected_append_single]

end ACad.UF

namespace ACad.UF

section CondFold

variable {P : ℕ × ℕ → Prop} [DecidablePred P]

theorem condFold_wf_length (l : List (ℕ × ℕ)) :
    ∀ s : UnionFind, WF s → (∀ p ∈ l, p.1 < s.parent.length ∧ p.2 < s.parent.length) →
      WF (l.foldl (fun t ij => if P ij then t.union ij.1 ij.2 else t) s) ∧
      (l.foldl (fun t ij => if P ij then t.union ij.1 ij.2 else t) s).parent.length
        = s.parent.length := by
  induction l with
  | nil => intro s hw _; exact ⟨hw, rfl⟩
  | cons hd tl ih =>
    intro s hw hb
    have hhd := hb hd (List.mem_cons_self hd tl)
    have hstep : WF (if P hd then s.union hd.1 hd.2 else s) ∧
        (if P hd then s.union hd.1 hd.2 else s).parent.length = s.parent.length := by
      by_cases hp : P hd
      · rw [if_pos hp]
        exact ⟨UnionFind.union_wf hw hhd.1 hhd.2, UnionFind.union_length hw hhd.1 hhd.2⟩
      · rw [if_neg hp]
        exact ⟨hw, rfl⟩
    have hb' : ∀ p ∈ tl, p.1 < (if P hd then s.union hd.1 hd.2 else s).parent.length ∧
        p.2 < (if P hd then s.union hd.1 hd.2 else s).parent.length := by
      intro p hp
      rw [hstep.2]
      exact hb p (List.mem_cons_of_mem hd hp)
    obtain ⟨h1, h2⟩ := ih _ hstep.1 hb'
    exact ⟨h1, by rw [List.foldl_cons, h2, hstep.2]⟩

theorem condFold_preserves_root_eq (l : List (ℕ × ℕ)) :
    ∀ s : UnionFind, WF s →
      (∀ p ∈ l, p.1 < s.parent.length ∧ p.2 < s.parent.length) →
      ∀ x y, x < s.parent.length → y < s.parent.length → s.root x = s.root y →
        (l.foldl (fun t ij => if P ij then t.union ij.1 ij.2 else t) s).root x
          = (l.foldl (fun t ij => if P ij then t.union ij.1 ij.2 else t) s).root y := by
  induction l with
  | nil => intro s _ _ x y _ _ h; exact h
  | cons hd tl ih =>
    intro s hw hb x y hx hy h
    have hhd := hb hd (List.mem_cons_self hd tl)
    rw [List.foldl_cons]
    by_cases hp : P hd
    · rw [if_pos hp] at *
      have hw' := UnionFind.union_wf hw hhd.1 hhd.2
      have hl' := UnionFind.union_length hw hhd.1 hhd.2
      refine ih _ hw' (fun p hp2 => by rw [hl']; exact hb p (List.mem_cons_of_mem hd hp2))
        x y (by rw [hl']; exact hx) (by rw [hl']; exact hy) ?_
      exact UnionFind.union_preserves_root_eq hw hhd.1 hhd.2 hx hy h
    · rw [if_neg hp]
      exact ih _ hw (fun p hp2 => hb p (List.mem_cons_of_mem hd hp2)) x y hx hy h

theorem condFold_root_eq_of_mem (l : List (ℕ × ℕ)) {i j : ℕ} (hmem : (i, j) ∈ l)
    (hP : P (i, j)) :
    ∀ s : UnionFind, WF s →
      (∀ p ∈ l, p.1 < s.parent.length ∧ p.2 < s.parent.length) →
      (l.foldl (fun t ij => if P ij then t.union ij.1 ij.2 else t) s).root i
        = (l.foldl (fun t ij => if P ij then t.union ij.1 ij.2 else t) s).root j := by
  induction l with
  | nil => exact absurd hmem (List.not_mem_nil _)
  | cons hd tl ih =>
    intro s hw hb
    have hhd := hb hd (List.mem_cons_self hd tl)
    rcases List.mem_cons.mp hmem with hcase | hcase
    · subst hcase
      rw [List.foldl_cons, if_pos hP]
      have hw' := UnionFind.union_wf hw hhd.1 hhd.2
      have hl' := UnionFind.union_length hw hhd.1 hhd.2
      refine condFold_preserves_root_eq tl _ hw'
        (fun p hp2 => by rw [hl']; exact hb p (List.mem_cons_of_mem _ hp2))
        i j (by rw [hl']; exact hhd.1) (by rw [hl']; exact hhd.2) ?_
      exact UnionFind.union_makes_root_eq hw hhd.1 hhd.2
    · rw [List.foldl_cons]
      by_cases hp : P hd
      · rw [if_pos hp]
        have hw' := UnionFind.union_wf hw hhd.1 hhd.2
        have hl' := UnionFind.union_length hw hhd.1 hhd.2
        exact ih hcase _ hw' (fun p hp2 => by rw [hl']; exact hb p (List.mem_cons_of_mem _ hp2))
      · rw [if_neg hp]
        exact ih hcase _ hw (fun p hp2 => hb p (List.mem_cons_of_mem _ hp2))

end CondFold

end ACad.UF

namespace ACad.GG

open ACad.UF

theorem mem_allPairs {n i j : ℕ} : (i, j) ∈ allPairs n ↔ i < j ∧ j < n := by
  simp only [allPairs, List.mem_flatMap, List.mem_map, List.mem_filter, List.mem_range,
    decide_eq_true_eq]
  constructor
  · rintro ⟨a, ha, b, ⟨hb, hab⟩, heq⟩
    obtain ⟨h1, h2⟩ := Prod.ext_iff.mp heq
    simp only at h1 h2
    subst h1
    subst h2
    exact ⟨hab, hb⟩
  · intro h
    exact ⟨i, lt_trans h.1 h.2, j, ⟨h.2, h.1⟩, rfl⟩

theorem insertGroup_keys (acc : List (ℕ × List ℕ)) (r i : ℕ) :
    (insertGroup acc r i).map Prod.fst =
      if r ∈ acc.map Prod.fst then acc.map Prod.fst else acc.map Prod.fst ++ [r] := by
  induction acc with
  | nil => simp [insertGroup]
  | cons hd tl ih =>
    by_cases hk : hd.1 = r
    · rw [show insertGroup (hd :: tl) r i = (hd.1, hd.2 ++ [i]) :: tl by
        rw [show (hd :: tl) = ((hd.1, hd.2) :: tl) by rw [Prod.mk.eta]]
        simp [insertGroup, hk]]
      simp [hk]
    · rw [show insertGroup (hd :: tl) r i = (hd.1, hd.2) :: insertGroup tl r i by
        rw [show (hd :: tl) = ((hd.1, hd.2) :: tl) by rw [Prod.mk.eta]]
        simp [insertGroup, hk]]
      simp only [List.map_cons, ih]
      have hne : r ≠ hd.1 := fun h => hk h.symm
      by_cases hm : r ∈ tl.map Prod.fst
      · simp [hm, hne]
      · simp [hm, hne]
end ACad.GG

namespace ACad.GG

open ACad.UF

theorem foldInsert_keys_nodup (k : ℕ → ℕ) (idxs : List ℕ) :
    ∀ acc : List (ℕ × List ℕ), (acc.map Prod.fst).Nodup →
      ((idxs.foldl (fun a i => insertGroup a (k i) i) acc).map Prod.fst).Nodup := by
  induction idxs with
  | nil => intro acc h; exact h
  | cons hd tl ih =>
    intro acc hnd
    rw [List.foldl_cons]
    refine ih _ ?_
    rw [insertGroup_keys]
    by_cases hm : k hd ∈ acc.map Prod.fst
    · rw [if_pos hm]; exact hnd
    · rw [if_neg hm]
      rw [List.nodup_append]
      exact ⟨hnd, List.nodup_singleton _, by simpa using hm⟩

theorem foldInsert_mem_keys (k : ℕ → ℕ) (idxs : List ℕ) :
    ∀ (acc : List (ℕ × List ℕ)) (r : ℕ),
      (r ∈ (idxs.foldl (fun a i => insertGroup a (k i) i) acc).map Prod.fst ↔
        r ∈ acc.map Prod.fst ∨ ∃ i ∈ idxs, k i = r) := by
  induction idxs with
  | nil => intro acc r; simp
  | cons hd tl ih =>
    intro acc r
    rw [List.foldl_cons, ih, insertGroup_keys]
    by_cases hm : k hd ∈ acc.map Prod.fst
    · rw [if_pos hm]
      constructor
      · rintro (h | ⟨i, hi, hk⟩)
        · exact Or.inl h
        · exact Or.inr ⟨i, List.mem_cons_of_mem hd hi, hk⟩
      · rintro (h | ⟨i, hi, hk⟩)
        · exact Or.inl h
        · rcases List.mem_cons.mp hi with heq | hi2
          · subst heq; left; rwa [hk] at hm
          · exact Or.inr ⟨i, hi2, hk⟩
    · rw [if_neg hm]
      simp only [List.mem_append, List.mem_singleton]
      constructor
      · rintro ((h | h) | ⟨i, hi, hk⟩)
        · exact Or.inl h
        · exact Or.inr ⟨hd, List.mem_cons_self hd tl, h.symm⟩
        · exact Or.inr ⟨i, List.mem_cons_of_mem hd hi, hk⟩
      · rintro (h | ⟨i, hi, hk⟩)
        · exact Or.inl (Or.inl h)
        · rcases List.mem_cons.mp hi with heq | hi2
          · subst heq; exact Or.inl (Or.inr hk.symm)
          · exact Or.inr ⟨i, hi2, hk⟩

theorem foldInsert_inj (k : ℕ → ℕ) (n : ℕ)
    (hlen : ((List.range n).foldl (fun a i => insertGroup a (k i) i) []).length = n) :
    ∀ i j, i < n → j < n → k i = k j → i = j := by
  intro i j hi hj hk
  have hnd : (((List.range n).foldl (fun a i => insertGroup a (k i) i) []).map
      Prod.fst).Nodup := foldInsert_keys_nodup k _ [] (by simp)
  have hkeylen : (((List.range n).foldl (fun a i => insertGroup a (k i) i) []).map
      Prod.fst).length = n := by rw [List.length_map, hlen]
  have h1 : (((List.range n).foldl (fun a i => insertGroup a (k i) i) []).map
      Prod.fst).toFinset.card = n := by
    rw [List.toFinset_card_of_nodup hnd, hkeylen]
  have h2 : (((List.range n).foldl (fun a i => insertGroup a (k i) i) []).map
      Prod.fst).toFinset ⊆ (Finset.range n).image k := by
    intro r hr
    rw [List.mem_toFinset] at hr
    rcases (foldInsert_mem_keys k _ [] r).mp hr with h | ⟨i2, hi2, hk2⟩
    · simp at h
    · exact Finset.mem_image.mpr ⟨i2, by simpa using hi2, hk2⟩
  have h6 : ((Finset.range n).image k).card = (Finset.range n).card := by
    have hle := Finset.card_le_card h2
    rw [h1] at hle
    have hge : ((Finset.range n).image k).card ≤ n := by
      have := Finset.card_image_le (s := Finset.range n) (f := k)
      simpa using this
    rw [Finset.card_range]
    omega
  have hinj := Finset.card_image_iff.mp h6
  refine hinj ?_ ?_ hk
  · simpa using hi
  · simpa using hj

theorem collectGroups_fold_eq :
    ∀ (idxs : List ℕ) (st : UnionFind) (acc : List (ℕ × List ℕ)), WF st →
      (∀ i ∈ idxs, i < st.parent.length) →
      (idxs.foldl (fun a i => (insertGroup a.1 (a.2.find i).1 i, (a.2.find i).2))
          (acc, st)).1
        = idxs.foldl (fun a i => insertGroup a (st.root i) i) acc := by
  intro idxs
  induction idxs with
  | nil => intro st acc _ _; rfl
  | cons hd tl ih =>
    intro st acc hw hb
    have hhd := hb hd (List.mem_cons_self hd tl)
    obtain ⟨hf1, hf2, hf3, hf4, hf5⟩ := UnionFind.find_spec hw hhd
    rw [List.foldl_cons, List.foldl_cons, hf1]
    rw [ih (st.find hd).2 _ hf2
      (fun i hi => by rw [hf3]; exact hb i (List.mem_cons_of_mem hd hi))]
    show List.foldl (fun a i => insertGroup a ((st.find hd).2.root i) i)
        (insertGroup acc (st.root hd) hd) tl
      = List.foldl (fun a i => insertGroup a (st.root i) i) (insertGroup acc (st.root hd) hd) tl
    refine List.foldl_ext _ _ _ ?_
    intro a i hi
    show insertGroup a ((st.find hd).2.root i) i = insertGroup a (st.root i) i
    rw [hf5 i (hb i (List.mem_cons_of_mem hd hi))]

end ACad.GG

namespace ACad.GG

open ACad.UF

open Classical in
theorem ufAfterPairs_wf_length (bboxes : List BBox) (merge_gap size_ratio : ℝ) :
    WF (ufAfterPairs bboxes merge_gap size_ratio) ∧
      (ufAfterPairs bboxes merge_gap size_ratio).parent.length = bboxes.length := by
  unfold ufAfterPairs
  have h := condFold_wf_length
    (P := fun ij => bbox_should_merge (bboxes.getD ij.1 default) (bboxes.getD ij.2 default)
      merge_gap size_ratio)
    (allPairs bboxes.length) (UnionFind.init bboxes.length) (UnionFind.wf_init _) ?_
  · simpa [UnionFind.init_parent_length] using h
  · intro p hp
    have hm := mem_allPairs.mp (show (p.1, p.2) ∈ allPairs bboxes.length from hp)
    rw [UnionFind.init_parent_length]
    omega

open Classical in
theorem ufAfterPairs_root_eq (bboxes : List BBox) (merge_gap size_ratio : ℝ) {i j : ℕ}
    (hij : i < j) (hj : j < bboxes.length)
    (hsm : bbox_should_merge (bboxes.getD i default) (bboxes.getD j default)
      merge_gap size_ratio) :
    (ufAfterPairs bboxes merge_gap size_ratio).root i
      = (ufAfterPairs bboxes merge_gap size_ratio).root j := by
  unfold ufAfterPairs
  refine condFold_root_eq_of_mem
    (P := fun ij => bbox_should_merge (bboxes.getD ij.1 default) (bboxes.getD ij.2 default)
      merge_gap size_ratio)
    (allPairs bboxes.length) (mem_allPairs.mpr ⟨hij, hj⟩) hsm
    (UnionFind.init bboxes.length) (UnionFind.wf_init _) ?_
  intro p hp
  have hm := mem_allPairs.mp (show (p.1, p.2) ∈ allPairs bboxes.length from hp)
  rw [UnionFind.init_parent_length]
  omega

theorem collectGroups_eq (st : UnionFind) (idxs : List ℕ) (hw : WF st)
    (hb : ∀ i ∈ idxs, i < st.parent.length) :
    (collectGroups st idxs).1 = idxs.foldl (fun a i => insertGroup a (st.root i) i) [] := by
  unfold collectGroups
  exact collectGroups_fold_eq idxs st [] hw hb

/-- Whenever `merge_by_bbox_iterative` returns, no two of the returned boxes
(in list order) satisfy the merge predicate: the loop only stops when the
union-find pass merges nothing. -/
theorem merge_by_bbox_post (merge_gap size_ratio : ℝ) :
    ∀ (N : ℕ) (bboxes : List BBox) (groups : List (List ℕ)), bboxes.length ≤ N →
      ((merge_by_bbox_iterative groups bboxes merge_gap size_ratio).2).Pairwise
        (fun a b => ¬bbox_should_merge a b merge_gap size_ratio) := by
  intro N
  induction N with
  | zero =>
    intro bboxes groups hlen
    have hnil : bboxes = [] := List.length_eq_zero.mp (Nat.le_zero.mp hlen)
    subst hnil
    rw [merge_by_bbox_iterative]
    simp [collectGroups]
  | succ N ih =>
    intro bboxes groups hlen
    obtain ⟨hwf, hwlen⟩ := ufAfterPairs_wf_length bboxes merge_gap size_ratio
    have hbound : ∀ i2 ∈ List.range bboxes.length,
        i2 < (ufAfterPairs bboxes merge_gap size_ratio).parent.length := by
      intro i2 hi2
      rw [hwlen]
      simpa using hi2
    have hmerged := collectGroups_eq (ufAfterPairs bboxes merge_gap size_ratio)
      (List.range bboxes.length) hwf hbound
    rw [merge_by_bbox_iterative]
    by_cases hc : ((collectGroups (ufAfterPairs bboxes merge_gap size_ratio)
        (List.range bboxes.length)).1).length = bboxes.length
    · rw [dif_pos hc]
      rw [List.pairwise_iff_getElem]
      intro i j hi hj hij hsm
      have hgdi : bboxes.getD i default = bboxes[i] := by
        rw [List.getD_eq_getElem?_getD, List.getElem?_eq_getElem hi]
        rfl
      have hgdj : bboxes.getD j default = bboxes[j] := by
        rw [List.getD_eq_getElem?_getD, List.getElem?_eq_getElem hj]
        rfl
      have hroot : (ufAfterPairs bboxes merge_gap size_ratio).root i
          = (ufAfterPairs bboxes merge_gap size_ratio).root j :=
        ufAfterPairs_root_eq bboxes merge_gap size_ratio hij hj
          (by rw [hgdi, hgdj]; exact hsm)
      have hinj := foldInsert_inj ((ufAfterPairs bboxes merge_gap size_ratio).root)
        bboxes.length (by rw [← hmerged]; exact hc)
      exact absurd (hinj i j hi hj hroot) (Nat.ne_of_lt hij)
    · rw [dif_neg hc]
      apply ih
      have h1 : ((collectGroups (ufAfterPairs bboxes merge_gap size_ratio)
          (List.range bboxes.length)).1).length ≤ bboxes.length := by
        unfold collectGroups
        simpa using collectGroups_length_le (List.range bboxes.length)
          ([], ufAfterPairs bboxes merge_gap size_ratio)
      simp only [List.length_map]
      rw [ACad.sortByKey, List.length_mergeSort]
      omega

end ACad.GG

namespace ACad.GG

theorem foldl_min_le_init {α : Type*} [LinearOrder α] (l : List α) :
    ∀ a : α, l.foldl min a ≤ a := by
  induction l with
  | nil => intro a; exact le_refl a
  | cons hd tl ih =>
    intro a
    rw [List.foldl_cons]
    exact le_trans (ih (min a hd)) (min_le_left a hd)

theorem le_foldl_max {α : Type*} [LinearOrder α] (l : List α) :
    ∀ a : α, a ≤ l.foldl max a := by
  induction l with
  | nil => intro a; exact le_refl a
  | cons hd tl ih =>
    intro a
    rw [List.foldl_cons]
    exact le_trans (le_max_left a hd) (ih (max a hd))

theorem foldl_max_le {α : Type*} [LinearOrder α] (l : List α) :
    ∀ a c : α, a ≤ c → (∀ x ∈ l, x ≤ c) → l.foldl max a ≤ c := by
  induction l with
  | nil => intro a c h _; exact h
  | cons hd tl ih =>
    intro a c ha hl
    rw [List.foldl_cons]
    exact ih _ c (max_le ha (hl hd (List.mem_cons_self hd tl)))
      (fun x hx => hl x (List.mem_cons_of_mem hd hx))

theorem mem_le_foldl_max {α : Type*} [LinearOrder α] (l : List α) :
    ∀ (a : α) (x : α), x ∈ l → x ≤ l.foldl max a := by
  induction l with
  | nil => intro a x hx; exact absurd hx (List.not_mem_nil x)
  | cons hd tl ih =>
    intro a x hx
    rw [List.foldl_cons]
    rcases List.mem_cons.mp hx with rfl | hx2
    · exact le_trans (le_max_right a x) (le_foldl_max tl _)
    · exact ih _ x hx2

theorem bbox_intersects_symm {a b : BBox} (h : bbox_intersects a b) : bbox_intersects b a := by
  unfold bbox_intersects at h ⊢
  tauto

theorem bbox_min_distance_symm {a b : BBox} (ha : a.wf) (hb : b.wf) :
    bbox_min_distance a b = bbox_min_distance b a := by
  unfold bbox_min_distance
  have hdx : (if a.x1 < b.x0 then b.x0 - a.x1 else if b.x1 < a.x0 then a.x0 - b.x1 else 0)
      = (if b.x1 < a.x0 then a.x0 - b.x1 else if a.x1 < b.x0 then b.x0 - a.x1 else 0) := by
    split_ifs <;> first | rfl | linarith [ha.1, hb.1]
  have hdy : (if a.y1 < b.y0 then b.y0 - a.y1 else if b.y1 < a.y0 then a.y0 - b.y1 else 0)
      = (if b.y1 < a.y0 then a.y0 - b.y1 else if a.y1 < b.y0 then b.y0 - a.y1 else 0) := by
    split_ifs <;> first | rfl | linarith [ha.2, hb.2]
  rw [hdx, hdy]

theorem bbox_should_merge_symm {a b : BBox} {merge_gap size_ratio : ℝ} (ha : a.wf)
    (hb : b.wf) (h : bbox_should_merge a b merge_gap size_ratio) :
    bbox_should_merge b a merge_gap size_ratio := by
  obtain ⟨h1, h2⟩ := h
  constructor
  · intro hsr
    have h3 := h1 hsr
    simp only [] at h3 ⊢
    rw [max_comm ((b.x1 - b.x0) * (b.y1 - b.y0) ⊔ 1e-9) ((a.x1 - a.x0) * (a.y1 - a.y0) ⊔ 1e-9),
      min_comm ((b.x1 - b.x0) * (b.y1 - b.y0) ⊔ 1e-9) ((a.x1 - a.x0) * (a.y1 - a.y0) ⊔ 1e-9)]
    exact h3
  · rcases h2 with h2 | h2
    · exact Or.inl (bbox_intersects_symm h2)
    · exact Or.inr ⟨h2.1, by rw [bbox_min_distance_symm hb ha]; exact h2.2⟩

theorem pairwise_and_flip {α : Type*} {R : α → α → Prop} :
    ∀ l : List α, (∀ x ∈ l, ∀ y ∈ l, R x y → R y x) → l.Pairwise R →
      l.Pairwise (fun a b => R a b ∧ R b a) := by
  intro l
  induction l with
  | nil => intro _ _; exact List.Pairwise.nil
  | cons hd tl ih =>
    intro hsym h
    rw [List.pairwise_cons] at h ⊢
    refine ⟨fun y hy => ⟨h.1 y hy, ?_⟩, ih ?_ h.2⟩
    · exact hsym hd (List.mem_cons_self hd tl) y (List.mem_cons_of_mem hd hy) (h.1 y hy)
    · intro x hx y hy
      exact hsym x (List.mem_cons_of_mem hd hx) y (List.mem_cons_of_mem hd hy)

theorem pairwise_perm_of_symmOn {α : Type*} {R : α → α → Prop} {l l' : List α}
    (hp : l.Perm l') (hsym : ∀ x ∈ l, ∀ y ∈ l, R x y → R y x) (h : l.Pairwise R) :
    l'.Pairwise R := by
  have h2 := pairwise_and_flip l hsym h
  have h3 : l'.Pairwise (fun a b => R a b ∧ R b a) :=
    (List.Perm.pairwise_iff (fun hxy => ⟨hxy.2, hxy.1⟩) hp).mp h2
  exact h3.imp (fun hx => hx.1)

theorem wf_default : (default : BBox).wf := ⟨le_refl 0, le_refl 0⟩

theorem wf_bbox_union {a b : BBox} (ha : a.wf) (hb : b.wf) : (bbox_union a b).wf := by
  constructor
  · exact le_trans (min_le_left a.x0 b.x0) (le_trans ha.1 (le_max_left a.x1 b.x1))
  · exact le_trans (min_le_left a.y0 b.y0) (le_trans ha.2 (le_max_left a.y1 b.y1))

theorem wf_getD {bboxes : List BBox} (hall : ∀ b ∈ bboxes, b.wf) (i : ℕ) :
    (bboxes.getD i default).wf := by
  by_cases h : i < bboxes.length
  · rw [List.getD_eq_getElem?_getD, List.getElem?_eq_getElem h]
    exact hall _ (List.getElem_mem h)
  · rw [List.getD_eq_getElem?_getD, List.getElem?_eq_none (by omega)]
    exact wf_default

theorem wf_boxUnionOver {bboxes : List BBox} (hall : ∀ b ∈ bboxes, b.wf)
    (members : List ℕ) : (boxUnionOver bboxes members).wf := by
  unfold boxUnionOver
  cases sortNat members with
  | nil => exact wf_default
  | cons m ms =>
    have : ∀ (l : List ℕ) (init : BBox), init.wf →
        (l.foldl (fun bb i => bbox_union bb (bboxes.getD i default)) init).wf := by
      intro l
      induction l with
      | nil => intro init h; exact h
      | cons hd tl ih =>
        intro init h
        rw [List.foldl_cons]
        exact ih _ (wf_bbox_union h (wf_getD hall hd))
    exact this ms _ (wf_getD hall m)

theorem merge_output_wf (merge_gap size_ratio : ℝ) :
    ∀ (N : ℕ) (bboxes : List BBox) (groups : List (List ℕ)), bboxes.length ≤ N →
      (∀ b ∈ bboxes, b.wf) →
      ∀ b ∈ (merge_by_bbox_iterative groups bboxes merge_gap size_ratio).2, b.wf := by
  intro N
  induction N with
  | zero =>
    intro bboxes groups hlen hall
    have hnil : bboxes = [] := List.length_eq_zero.mp (Nat.le_zero.mp hlen)
    subst hnil
    rw [merge_by_bbox_iterative]
    simp [collectGroups]
  | succ N ih =>
    intro bboxes groups hlen hall
    rw [merge_by_bbox_iterative]
    by_cases hc : ((collectGroups (ufAfterPairs bboxes merge_gap size_ratio)
        (List.range bboxes.length)).1).length = bboxes.length
    · rw [dif_pos hc]
      exact hall
    · rw [dif_neg hc]
      refine ih _ _ ?_ ?_
      · have h1 : ((collectGroups (ufAfterPairs bboxes merge_gap size_ratio)
            (List.range bboxes.length)).1).length ≤ bboxes.length := by
          unfold collectGroups
          simpa using collectGroups_length_le (List.range bboxes.length)
            ([], ufAfterPairs bboxes merge_gap size_ratio)
        simp only [List.length_map]
        rw [ACad.sortByKey, List.length_mergeSort]
        omega
      · intro b hb
        rw [List.mem_map] at hb
        obtain ⟨e, _, rfl⟩ := hb
        exact wf_boxUnionOver hall e.2

end ACad.GG

namespace ACad.GG

theorem wf_compute_bbox {ebbs : List BBox} {pad : ℝ} {nb : BBox}
    (hall : ∀ b ∈ ebbs, b.wf) (hpad : 0 ≤ pad)
    (h : compute_bbox_for_entity_bboxes ebbs pad = some nb) : nb.wf := by
  unfold compute_bbox_for_entity_bboxes at h
  cases ebbs with
  | nil => exact absurd h (by simp)
  | cons b bs =>
    have hb := hall b (List.mem_cons_self b bs)
    obtain rfl := (Option.some.injEq _ _).mp h
    constructor
    · have h1 : (bs.map BBox.x0).foldl min b.x0 ≤ b.x0 := foldl_min_le_init _ _
      have h2 : b.x1 ≤ (bs.map BBox.x1).foldl max b.x1 := le_foldl_max _ _
      show (bs.map BBox.x0).foldl min b.x0 - pad ≤ (bs.map BBox.x1).foldl max b.x1 + pad
      have := hb.1
      linarith
    · have h1 : (bs.map BBox.y0).foldl min b.y0 ≤ b.y0 := foldl_min_le_init _ _
      have h2 : b.y1 ≤ (bs.map BBox.y1).foldl max b.y1 := le_foldl_max _ _
      show (bs.map BBox.y0).foldl min b.y0 - pad ≤ (bs.map BBox.y1).foldl max b.y1 + pad
      have := hb.2
      linarith

theorem mem_sortBBoxes {l : List BBox} {b : BBox} :
    b ∈ sortBBoxes l ↔ b ∈ l := by
  unfold sortBBoxes sortByKey
  exact (List.mergeSort_perm l _).mem_iff

theorem sortmerge_pairwise {l : List BBox} (hl : ∀ b ∈ l, b.wf) (merge_gap : ℝ)
    (groups : List (List ℕ)) :
    (sortBBoxes (merge_by_bbox_iterative groups l merge_gap 0).2).Pairwise
      (fun a b => ¬bbox_should_merge a b merge_gap 0) := by
  have hout_wf := merge_output_wf merge_gap 0 l.length l groups le_rfl hl
  have hpair := merge_by_bbox_post merge_gap 0 l.length l groups le_rfl
  refine pairwise_perm_of_symmOn ?_ ?_ hpair
  · exact (List.mergeSort_perm _ _).symm
  · intro x hx y hy hxy hmyx
    exact hxy (bbox_should_merge_symm (hout_wf y hy) (hout_wf x hx) hmyx)

open Classical in
theorem map_refine_wf {all_entity_bboxes : List (ℕ × BBox)} {pad : ℝ} {l : List BBox}
    (hl : ∀ b ∈ l, b.wf) (hent : ∀ e ∈ all_entity_bboxes, (e.2).wf) (hpad : 0 ≤ pad) :
    ∀ r ∈ l.map (fun bb =>
      match compute_bbox_for_entity_bboxes
        ((all_entity_bboxes.filter (fun e => bbox_contains bb e.2)).map Prod.snd) pad with
      | some nb => nb
      | none => bb), r.wf := by
  intro r hr
  rw [List.mem_map] at hr
  obtain ⟨bb, hbb, rfl⟩ := hr
  split
  case h_1 nb heq =>
    refine wf_compute_bbox ?_ hpad heq
    intro e he
    rw [List.mem_map] at he
    obtain ⟨q, hq, rfl⟩ := he
    exact hent q (List.mem_of_mem_filter hq)
  case h_2 => exact hl bb hbb

theorem refineStep_wf {all_entity_bboxes : List (ℕ × BBox)} {pad merge_gap : ℝ}
    {cur : List BBox} (hent : ∀ e ∈ all_entity_bboxes, (e.2).wf) (hpad : 0 ≤ pad)
    (hcur : ∀ b ∈ cur, b.wf) :
    ∀ b ∈ refineStep all_entity_bboxes pad merge_gap cur, b.wf := by
  intro b hb
  unfold refineStep at hb
  dsimp only at hb
  rw [mem_sortBBoxes] at hb
  exact merge_output_wf merge_gap 0 _ _ _ le_rfl
    (map_refine_wf (merge_output_wf merge_gap 0 _ _ _ le_rfl hcur) hent hpad) b hb

theorem refineStep_pairwise {all_entity_bboxes : List (ℕ × BBox)} {pad merge_gap : ℝ}
    {cur : List BBox} (hent : ∀ e ∈ all_entity_bboxes, (e.2).wf) (hpad : 0 ≤ pad)
    (hcur : ∀ b ∈ cur, b.wf) :
    (refineStep all_entity_bboxes pad merge_gap cur).Pairwise
      (fun a b => ¬bbox_should_merge a b merge_gap 0) := by
  unfold refineStep
  dsimp only
  exact sortmerge_pairwise
    (map_refine_wf (merge_output_wf merge_gap 0 _ _ _ le_rfl hcur) hent hpad) merge_gap _

theorem refineLoop_post (all_entity_bboxes : List (ℕ × BBox)) (pad merge_gap : ℝ)
    (hent : ∀ e ∈ all_entity_bboxes, (e.2).wf) (hpad : 0 ≤ pad) :
    ∀ fuel cur, (∀ b ∈ cur, b.wf) →
      (∀ b ∈ refineLoop all_entity_bboxes pad merge_gap (fuel + 1) cur, b.wf) ∧
        (refineLoop all_entity_bboxes pad merge_gap (fuel + 1) cur).Pairwise
          (fun a b => ¬bbox_should_merge a b merge_gap 0) := by
  intro fuel
  induction fuel with
  | zero =>
    intro cur hcur
    rw [refineLoop]
    by_cases hcond : (refineStep all_entity_bboxes pad merge_gap cur).length = cur.length ∧
        ((refineStep all_entity_bboxes pad merge_gap cur).zip cur).Forall
          (fun q => _bbox_close q.1 q.2)
    · rw [if_pos hcond]
      exact ⟨refineStep_wf hent hpad hcur, refineStep_pairwise hent hpad hcur⟩
    · rw [if_neg hcond, refineLoop]
      exact ⟨refineStep_wf hent hpad hcur, refineStep_pairwise hent hpad hcur⟩
  | succ f ih =>
    intro cur hcur
    rw [refineLoop]
    by_cases hcond : (refineStep all_entity_bboxes pad merge_gap cur).length = cur.length ∧
        ((refineStep all_entity_bboxes pad merge_gap cur).zip cur).Forall
          (fun q => _bbox_close q.1 q.2)
    · rw [if_pos hcond]
      exact ⟨refineStep_wf hent hpad hcur, refineStep_pairwise hent hpad hcur⟩
    · rw [if_neg hcond]
      exact ih _ (refineStep_wf hent hpad hcur)

end ACad.GG

namespace ACad

/-- Sorting by an injective key is a canonical form: permuted inputs sort to
the same list. -/
theorem sortByKey_eq_of_perm {α κ : Type*} [LinearOrder κ] [DecidableEq α]
    (key : α → κ) (hinj : Function.Injective key) {l₁ l₂ : List α} (hp : l₁.Perm l₂) :
    sortByKey key l₁ = sortByKey key l₂ := by
  have htrans : ∀ a b c : α, decide (key a ≤ key b) = true → decide (key b ≤ key c) = true →
      decide (key a ≤ key c) = true := by
    intro a b c h1 h2
    rw [decide_eq_true_eq] at h1 h2 ⊢
    exact le_trans h1 h2
  have htotal : ∀ a b : α, (decide (key a ≤ key b) || decide (key b ≤ key a)) = true := by
    intro a b
    rcases le_total (key a) (key b) with h | h
    · simp [h]
    · simp [h]
  have hs1 := List.sorted_mergeSort htrans htotal l₁
  have hs2 := List.sorted_mergeSort htrans htotal l₂
  haveI : IsAntisymm α (fun a b => decide (key a ≤ key b) = true) := by
    constructor
    intro a b h1 h2
    rw [decide_eq_true_eq] at h1 h2
    exact hinj (le_antisymm h1 h2)
  refine List.eq_of_perm_of_sorted ?_ hs1 hs2
  exact ((List.mergeSort_perm l₁ _).trans hp).trans (List.mergeSort_perm l₂ _).symm

theorem hypot_nonneg (x y : ℝ) : 0 ≤ hypot x y := Real.sqrt_nonneg _

theorem hypot_smul {k : ℝ} (hk : 0 ≤ k) (x y : ℝ) : hypot (k * x) (k * y) = k * hypot x y := by
  unfold hypot
  rw [show (k * x) ^ 2 + (k * y) ^ 2 = k ^ 2 * (x ^ 2 + y ^ 2) by ring,
    Real.sqrt_mul (sq_nonneg k), Real.sqrt_sq_eq_abs, abs_of_nonneg hk]

theorem hypot_eq_zero {x y : ℝ} (h : hypot x y = 0) : x = 0 ∧ y = 0 := by
  unfold hypot at h
  have h2 : x ^ 2 + y ^ 2 = 0 := by
    have hnn : 0 ≤ x ^ 2 + y ^ 2 := by positivity
    have := Real.sqrt_eq_zero hnn |>.mp h
    exact this
  constructor
  · nlinarith [sq_nonneg x, sq_nonneg y]
  · nlinarith [sq_nonneg x, sq_nonneg y]

theorem sum_map_linear {α : Type*} (l : List α) (f : α → ℝ) (k c : ℝ) :
    (l.map (fun x => k * f x + c)).sum = k * (l.map f).sum + l.length * c := by
  induction l with
  | nil => simp
  | cons hd tl ih =>
    simp only [List.map_cons, List.sum_cons, ih, List.length_cons]
    push_cast
    ring

theorem foldl_max_perm {l₁ l₂ : List ℝ} (hp : l₁.Perm l₂) (a : ℝ) :
    l₁.foldl max a = l₂.foldl max a := by
  haveI : Std.Commutative (max : ℝ → ℝ → ℝ) := ⟨max_comm⟩
  haveI : Std.Associative (max : ℝ → ℝ → ℝ) := ⟨max_assoc⟩
  haveI inst : RightCommutative (max : ℝ → ℝ → ℝ) := ⟨fun b a₁ a₂ => by
    rw [max_assoc, max_comm a₁ a₂, ← max_assoc]⟩
  exact hp.foldl_eq a

theorem foldl_max_smul {k : ℝ} (hk : 0 ≤ k) (l : List ℝ) :
    ∀ init : ℝ, (l.map (fun x => k * x)).foldl max (k * init) = k * l.foldl max init := by
  induction l with
  | nil => intro init; simp
  | cons hd tl ih =>
    intro init
    simp only [List.map_cons, List.foldl_cons]
    rw [show max (k * init) (k * hd) = k * max init hd from (mul_max_of_nonneg _ _ hk).symm]
    exact ih (max init hd)

theorem le_foldl_max_of_mem {l : List ℝ} {x : ℝ} (hx : x ∈ l) (a : ℝ) :
    x ≤ l.foldl max a :=
  ACad.GG.mem_le_foldl_max l a x hx

end ACad

namespace ACad.GG

theorem normalize_points_eq (points : List Pt) (hne : points ≠ []) :
    _normalize_points points =
      ((nShifted points).map (fun p => (p.1 / nScale points, p.2 / nScale points)),
        nCentroid points, nScale points) := by
  unfold _normalize_points nScale nMaxR nShifted nCentroid
  rw [if_neg hne]
  dsimp only
  simp only [List.foldl_map]

theorem nMaxR_nonneg (points : List Pt) : 0 ≤ nMaxR points :=
  ACad.GG.le_foldl_max _ 0

theorem nScale_pos (points : List Pt) : 0 < nScale points := by
  unfold nScale
  split_ifs with h
  · exact one_pos
  · exact lt_of_not_le h

theorem normalize_scale_pos (points : List Pt) : 0 < (_normalize_points points).2.2 := by
  by_cases hne : points = []
  · subst hne
    simp [_normalize_points]
  · rw [normalize_points_eq points hne]
    exact nScale_pos points

theorem allEq_of_nMaxR_le_zero {points : List Pt} (h : nMaxR points ≤ 0) :
    ∀ p ∈ points, ∀ q ∈ points, p = q := by
  have hzero : ∀ p ∈ points, (p.1 - (nCentroid points).1, p.2 - (nCentroid points).2)
      = ((0 : ℝ), (0 : ℝ)) := by
    intro p hp
    have hmem : hypot (p.1 - (nCentroid points).1) (p.2 - (nCentroid points).2)
        ∈ (nShifted points).map (fun q => hypot q.1 q.2) := by
      rw [nShifted, List.map_map]
      exact List.mem_map.mpr ⟨p, hp, rfl⟩
    have hle := ACad.le_foldl_max_of_mem hmem 0
    have hzero : hypot (p.1 - (nCentroid points).1) (p.2 - (nCentroid points).2) = 0 :=
      le_antisymm (le_trans hle h) (hypot_nonneg _ _)
    obtain ⟨h1, h2⟩ := hypot_eq_zero hzero
    rw [h1, h2]
  intro p hp q hq
  have h1 := hzero p hp
  have h2 := hzero q hq
  rw [Prod.mk.injEq] at h1 h2
  have : p.1 = q.1 := by
    have := h1.1
    have := h2.1
    nlinarith [h1.1, h2.1]
  have : p.2 = q.2 := by
    nlinarith [h1.2, h2.2]
  exact Prod.ext (by nlinarith [h1.1, h2.1]) (by nlinarith [h1.2, h2.2])

theorem map_fst_affine (points : List Pt) (k dx dy : ℝ) :
    (points.map (affinePt k dx dy)).map Prod.fst = points.map (fun p => k * p.1 + dx) := by
  rw [List.map_map]
  rfl

theorem map_snd_affine (points : List Pt) (k dx dy : ℝ) :
    (points.map (affinePt k dx dy)).map Prod.snd = points.map (fun p => k * p.2 + dy) := by
  rw [List.map_map]
  rfl

theorem nCentroid_affine {points points' : List Pt} {k dx dy : ℝ}
    (hp : points'.Perm (points.map (affinePt k dx dy))) (hne : points ≠ []) :
    nCentroid points' = affinePt k dx dy (nCentroid points) := by
  have hlen : points'.length = points.length := by
    rw [hp.length_eq, List.length_map]
  have hn : (points.length : ℝ) ≠ 0 := by
    have : points.length ≠ 0 := fun h => hne (List.length_eq_zero.mp h)
    exact_mod_cast this
  have hsx : (points'.map Prod.fst).sum = k * (points.map Prod.fst).sum
      + points.length * dx := by
    rw [(hp.map Prod.fst).sum_eq, map_fst_affine, sum_map_linear]
  have hsy : (points'.map Prod.snd).sum = k * (points.map Prod.snd).sum
      + points.length * dy := by
    rw [(hp.map Prod.snd).sum_eq, map_snd_affine, sum_map_linear]
  unfold nCentroid affinePt
  rw [hsx, hsy, hlen]
  have heq1 : (k * (points.map Prod.fst).sum + points.length * dx) / (points.length : ℝ)
      = k * ((points.map Prod.fst).sum / points.length) + dx := by
    field_simp
    ring
  have heq2 : (k * (points.map Prod.snd).sum + points.length * dy) / (points.length : ℝ)
      = k * ((points.map Prod.snd).sum / points.length) + dy := by
    field_simp
    ring
  rw [Prod.mk.injEq]
  exact ⟨heq1, heq2⟩

theorem nShifted_affine {points points' : List Pt} {k dx dy : ℝ}
    (hp : points'.Perm (points.map (affinePt k dx dy))) (hne : points ≠ []) :
    (nShifted points').Perm ((nShifted points).map (fun p => (k * p.1, k * p.2))) := by
  have hc := nCentroid_affine hp hne
  unfold nShifted
  rw [hc]
  refine (hp.map _).trans ?_
  rw [List.map_map, List.map_map]
  apply List.Perm.of_eq
  apply List.map_congr_left
  intro p _
  simp only [Function.comp_apply, affinePt]
  rw [Prod.mk.injEq]
  constructor <;> ring

theorem nMaxR_affine {points points' : List Pt} {k dx dy : ℝ} (hk : 0 ≤ k)
    (hp : points'.Perm (points.map (affinePt k dx dy))) (hne : points ≠ []) :
    nMaxR points' = k * nMaxR points := by
  unfold nMaxR
  have hperm := (nShifted_affine hp hne).map (fun p => hypot p.1 p.2)
  rw [ACad.foldl_max_perm hperm 0]
  rw [List.map_map]
  have hfun : ((fun p : Pt => hypot p.1 p.2) ∘ fun p : Pt => (k * p.1, k * p.2))
      = fun p : Pt => k * hypot p.1 p.2 := by
    funext p
    exact hypot_smul hk p.1 p.2
  rw [hfun]
  have : (nShifted points).map (fun p => k * hypot p.1 p.2)
      = ((nShifted points).map (fun p => hypot p.1 p.2)).map (fun x => k * x) := by
    rw [List.map_map]
    rfl
  rw [this, show (0 : ℝ) = k * 0 by ring, ACad.foldl_max_smul hk]
  ring_nf

theorem nScale_affine {points points' : List Pt} {k dx dy : ℝ} (hk : 0 < k)
    (hdeg : (∀ p ∈ points, ∀ q ∈ points, p = q) → k = 1)
    (hp : points'.Perm (points.map (affinePt k dx dy))) (hne : points ≠ []) :
    nScale points' = k * nScale points := by
  have hm := nMaxR_affine hk.le hp hne
  unfold nScale
  by_cases h0 : nMaxR points ≤ 0
  · have hk1 : k = 1 := hdeg (allEq_of_nMaxR_le_zero h0)
    rw [hm, hk1]
    simp [h0]
  · have hpos : 0 < nMaxR points := lt_of_not_le h0
    have hpos' : ¬(nMaxR points' ≤ 0) := by
      rw [hm]
      push_neg
      exact mul_pos hk hpos
    rw [if_neg hpos', if_neg h0, hm]

end ACad.GG

namespace ACad.GG

theorem primKey_injective : Function.Injective primKey := by
  intro a b h
  cases a <;> cases b <;> simp_all [primKey, Prod.ext_iff]

theorem naqp_affine (prims prims' : List Prim) (c : Pt) (s k dx dy grid : ℝ)
    (hk : 0 < k) (hs : s ≠ 0)
    (hr : prims'.Perm (prims.map (affinePrim k dx dy))) :
    (_normalize_and_quantize_primitives prims' (affinePt k dx dy c) (k * s) grid).Perm
      (_normalize_and_quantize_primitives prims c s grid) := by
  unfold _normalize_and_quantize_primitives
  rw [if_neg (mul_ne_zero (ne_of_gt hk) hs), if_neg hs]
  dsimp only
  refine (hr.map _).trans ?_
  rw [List.map_map]
  apply List.Perm.of_eq
  apply List.map_congr_left
  intro p _
  have hpt1 : ∀ q : Pt, ((affinePt k dx dy q).1 - (affinePt k dx dy c).1) / (k * s)
      = (q.1 - c.1) / s := by
    intro q
    unfold affinePt
    rw [show k * q.1 + dx - (k * c.1 + dx) = k * (q.1 - c.1) by ring,
      mul_div_mul_left _ _ (ne_of_gt hk)]
  have hpt2 : ∀ q : Pt, ((affinePt k dx dy q).2 - (affinePt k dx dy c).2) / (k * s)
      = (q.2 - c.2) / s := by
    intro q
    unfold affinePt
    rw [show k * q.2 + dy - (k * c.2 + dy) = k * (q.2 - c.2) by ring,
      mul_div_mul_left _ _ (ne_of_gt hk)]
  have hrad : ∀ r : ℝ, (k * r) / (k * s) = r / s := by
    intro r
    rw [mul_div_mul_left _ _ (ne_of_gt hk)]
  cases p with
  | line p0 p1 =>
    simp only [Function.comp_apply, affinePrim]
    rw [hpt1 p0, hpt2 p0, hpt1 p1, hpt2 p1]
  | arc cc r p0 p1 =>
    simp only [Function.comp_apply, affinePrim]
    rw [hpt1 cc, hpt2 cc, hpt1 p0, hpt2 p0, hpt1 p1, hpt2 p1, hrad r]
  | circle cc r =>
    simp only [Function.comp_apply, affinePrim]
    rw [hpt1 cc, hpt2 cc, hrad r]

/-- Full invariance of the canonical geometry (hence of the geometry id)
under translation, uniform positive scaling and reordering.  The degeneracy
hypothesis `hdeg` is necessary: when all sampled points coincide the
normalisation uses scale 1, and a non-unit scale then changes the quantised
primitives (see the counterexample below). -/
theorem canonical_affine (pts prims pts' prims' : _) (k dx dy grid : ℝ) (hk : 0 < k)
    (hemp : pts = [] → prims = [])
    (hdeg : (∀ p ∈ pts, ∀ q ∈ pts, p = q) → k = 1)
    (hp : pts'.Perm (pts.map (affinePt k dx dy)))
    (hr : prims'.Perm (prims.map (affinePrim k dx dy))) :
    canonical pts' prims' grid = canonical pts prims grid := by
  by_cases hne : pts = []
  · subst hne
    have hprims : prims = [] := hemp rfl
    subst hprims
    have hpts' : pts' = [] := by simpa using hp
    have hprims' : prims' = [] := by simpa using hr
    rw [hpts', hprims']
  · have hne' : pts' ≠ [] := by
      intro h
      subst h
      have hmap : List.map (affinePt k dx dy) pts = [] := by
        simpa using hp.symm
      exact hne (List.map_eq_nil.mp hmap)
    have hsc := nScale_affine hk hdeg hp hne
    have hcen := nCentroid_affine hp hne
    have hspos := nScale_pos pts
    unfold canonical
    rw [normalize_points_eq pts' hne', normalize_points_eq pts hne]
    dsimp only
    have hnormperm : ((nShifted pts').map
        (fun p => (p.1 / nScale pts', p.2 / nScale pts'))).Perm
        ((nShifted pts).map (fun p => (p.1 / nScale pts, p.2 / nScale pts))) := by
      rw [hsc]
      refine ((nShifted_affine hp hne).map _).trans ?_
      rw [List.map_map]
      apply List.Perm.of_eq
      apply List.map_congr_left
      intro p _
      simp only [Function.comp_apply]
      rw [Prod.mk.injEq]
      constructor
      · rw [mul_div_mul_left _ _ (ne_of_gt hk)]
      · rw [mul_div_mul_left _ _ (ne_of_gt hk)]
    rw [Prod.mk.injEq]
    constructor
    · have hq : (_quantize_points ((nShifted pts').map
          (fun p => (p.1 / nScale pts', p.2 / nScale pts'))) grid)
          = (_quantize_points ((nShifted pts).map
            (fun p => (p.1 / nScale pts, p.2 / nScale pts))) grid) := by
        unfold _quantize_points
        exact ACad.sortByKey_eq_of_perm _ toLex.injective (hnormperm.map _)
      rw [hq]
    · rw [hcen, hsc]
      exact ACad.sortByKey_eq_of_perm _ primKey_injective
        (naqp_affine prims prims' (nCentroid pts) (nScale pts) k dx dy grid hk
          (ne_of_gt hspos) hr)

end ACad.GG

namespace ACad

theorem rhe_intCast (n : ℤ) : rhe ((n : ℝ)) = n := by
  unfold rhe
  rw [Int.fract_intCast]
  norm_num

theorem sortByKey_singleton {α κ : Type*} [LinearOrder κ] [DecidableEq α]
    (key : α → κ) (a : α) : sortByKey key [a] = [a] :=
  List.perm_singleton.mp (List.mergeSort_perm [a] _)

end ACad

namespace ACad.GG

theorem qf_of_intCast_div (n : ℤ) (v : ℝ) (hv : v / (1/100 : ℝ) = (n : ℝ)) :
    _qf v (1/100 : ℝ) = n := by
  unfold _qf
  rw [if_neg (by norm_num)]
  dsimp only
  rw [hv, ACad.rhe_intCast]

theorem canonical_zero_circle (r : ℝ) :
    canonical [((0:ℝ), (0:ℝ))] [Prim.circle ((0:ℝ), (0:ℝ)) r] (1/100)
      = ([((0:ℤ), (0:ℤ))], [QPrim.circle (0, 0) (ACad.rhe ((100:ℝ) * r))]) := by
  have h1 : nCentroid [((0:ℝ), (0:ℝ))] = (0, 0) := by
    unfold nCentroid
    norm_num
  have h2 : nShifted [((0:ℝ), (0:ℝ))] = [(0, 0)] := by
    rw [nShifted, h1]
    norm_num
  have h3 : nMaxR [((0:ℝ), (0:ℝ))] = 0 := by
    rw [nMaxR, h2]
    simp only [List.map_cons, List.map_nil, List.foldl_cons, List.foldl_nil, hypot]
    norm_num
  have h4 : nScale [((0:ℝ), (0:ℝ))] = 1 := by
    rw [nScale, h3]
    norm_num
  have hqf0 : _qf ((0:ℝ)/1) (1/100 : ℝ) = 0 := by
    apply qf_of_intCast_div
    norm_num
  have hqfr : _qf (r/1) (1/100 : ℝ) = ACad.rhe ((100:ℝ) * r) := by
    unfold _qf
    rw [if_neg (by norm_num)]
    dsimp only
    have hdiv : r / 1 / (1/100 : ℝ) = 100 * r := by
      field_simp
      ring
    rw [hdiv]
  unfold canonical
  rw [normalize_points_eq _ (by simp)]
  dsimp only
  rw [h1, h2, h4]
  rw [Prod.mk.injEq]
  constructor
  · unfold _quantize_points
    simp only [List.map_cons, List.map_nil]
    rw [hqf0, ACad.sortByKey_singleton]
    rfl
  · unfold _normalize_and_quantize_primitives
    rw [if_neg (one_ne_zero)]
    dsimp only
    simp only [List.map_cons, List.map_nil]
    have hz : ((0:ℝ) - 0) / 1 = (0:ℝ)/1 := by norm_num
    rw [hz, hqf0, hqfr, ACad.sortByKey_singleton]

/-- C1 (amended): canonicalising a symbol after translating by any `(dx, dy)`,
uniformly scaling by any `k > 0` and permuting its sampled points and
primitive records yields the identical canonical pair (hence the identical
geometry id), **provided** the sampled point set is non-degenerate (contains
two distinct points).  The original unconditional claim fails for degenerate
symbols — their normalisation scale is substituted by 1, which is not
scale-covariant (see the counterexample). -/
theorem C1_geom_id_invariance (pts : List Pt) (prims : List Prim)
    (pts' : List Pt) (prims' : List Prim) (k dx dy grid : ℝ) (hk : 0 < k)
    (hnd : ∃ p ∈ pts, ∃ q ∈ pts, p ≠ q)
    (hp : pts'.Perm (pts.map (affinePt k dx dy)))
    (hr : prims'.Perm (prims.map (affinePrim k dx dy))) :
    canonical pts' prims' grid = canonical pts prims grid := by
  obtain ⟨p, hpm, q, hqm, hpq⟩ := hnd
  refine canonical_affine pts prims pts' prims' k dx dy grid hk ?_ ?_ hp hr
  · intro h
    rw [h] at hpm
    exact absurd hpm (List.not_mem_nil p)
  · intro hall
    exact absurd (hall p hpm q hqm) hpq

/-- Witness for C1: the two-point symbol `[(0,0), (1,0)]`, translated by
`(3, 0)` and scaled by `2`, with its points listed in the opposite order,
canonicalises identically. -/
theorem C1_geom_id_invariance_witness :
    ((0:ℝ) < 2 ∧ (∃ p ∈ [((0:ℝ), (0:ℝ)), (1, 0)], ∃ q ∈ [((0:ℝ), (0:ℝ)), (1, 0)], p ≠ q)) ∧
    canonical [((5:ℝ), (0:ℝ)), (3, 0)] [] (1/100)
      = canonical [((0:ℝ), (0:ℝ)), (1, 0)] [] (1/100) := by
  have hk : (0:ℝ) < 2 := by norm_num
  have hnd : ∃ p ∈ [((0:ℝ), (0:ℝ)), (1, 0)], ∃ q ∈ [((0:ℝ), (0:ℝ)), (1, 0)], p ≠ q := by
    refine ⟨(0, 0), by simp, (1, 0), by simp, ?_⟩
    simp [Prod.ext_iff]
  have hmap : List.map (affinePt 2 3 0) [((0:ℝ), (0:ℝ)), (1, 0)] = [(3, 0), (5, 0)] := by
    simp [affinePt]
    norm_num
  have hp : List.Perm [((5:ℝ), (0:ℝ)), (3, 0)]
      (List.map (affinePt 2 3 0) [((0:ℝ), (0:ℝ)), (1, 0)]) := by
    rw [hmap]
    exact List.Perm.swap _ _ _
  have hr : List.Perm ([] : List Prim) (List.map (affinePrim 2 3 0) []) := by
    simp
  exact ⟨⟨hk, hnd⟩, C1_geom_id_invariance _ _ _ _ 2 3 0 (1/100) hk hnd hp hr⟩

/-- Counterexample to the original C1: the degenerate symbol with the single
sampled point `(0,0)` and one circle primitive of radius 1, scaled by `k = 2`
(no translation, same ordering), canonicalises differently — the normalisation
substitutes scale 1 in the degenerate case, so the quantised radius doubles
(100 vs 200) and the geometry id changes. -/
theorem C1_counterexample :
    (0:ℝ) < 2 ∧
    List.Perm [((0:ℝ), (0:ℝ))] (List.map (affinePt 2 0 0) [((0:ℝ), (0:ℝ))]) ∧
    List.Perm [Prim.circle ((0:ℝ), (0:ℝ)) 2]
      (List.map (affinePrim 2 0 0) [Prim.circle ((0:ℝ), (0:ℝ)) 1]) ∧
    canonical [((0:ℝ), (0:ℝ))] [Prim.circle ((0:ℝ), (0:ℝ)) 2] (1/100)
      ≠ canonical [((0:ℝ), (0:ℝ))] [Prim.circle ((0:ℝ), (0:ℝ)) 1] (1/100) := by
  refine ⟨by norm_num, ?_, ?_, ?_⟩
  · simp [affinePt]
  · simp [affinePrim, affinePt]
  · rw [canonical_zero_circle 2, canonical_zero_circle 1]
    have h2 : (100:ℝ) * 2 = ((200:ℤ) : ℝ) := by norm_num
    have h1 : (100:ℝ) * 1 = ((100:ℤ) : ℝ) := by norm_num
    rw [h2, h1, ACad.rhe_intCast, ACad.rhe_intCast]
    decide

end ACad.GG

namespace ACad.UF

/-- C4: on a UnionFind of `n` elements, after any in-range sequence of
`union` operations, `find(a) == find(b)` holds exactly when `a` and `b` are
connected by a chain of the performed unions; and performing `union(a, b)` a
second time (immediately after a first `union(a, b)`, so the two are already
in the same set) leaves the resulting partition — which indices share a root —
unchanged. -/
theorem C4_unionfind_connectivity (ops : List (ℕ × ℕ)) (n a b : ℕ)
    (ha : a < n) (hb : b < n) (hops : ∀ p ∈ ops, p.1 < n ∧ p.2 < n) :
    (((applyOps ops (UnionFind.init n)).find a).1
        = ((applyOps ops (UnionFind.init n)).find b).1 ↔ Connected ops a b) ∧
    (∀ x y, x < n → y < n →
      ((applyOps (ops ++ [(a, b), (a, b)]) (UnionFind.init n)).root x
          = (applyOps (ops ++ [(a, b), (a, b)]) (UnionFind.init n)).root y ↔
        (applyOps (ops ++ [(a, b)]) (UnionFind.init n)).root x
          = (applyOps (ops ++ [(a, b)]) (UnionFind.init n)).root y)) := by
  obtain ⟨hw, hlen⟩ := applyOps_wf_length ops (UnionFind.init n) (UnionFind.wf_init n)
    (by simpa [UnionFind.init_parent_length] using hops)
  have hlen' : (applyOps ops (UnionFind.init n)).parent.length = n := by
    rw [hlen, UnionFind.init_parent_length]
  constructor
  · have hfa := (UnionFind.find_spec hw (x := a) (by rw [hlen']; exact ha)).1
    have hfb := (UnionFind.find_spec hw (x := b) (by rw [hlen']; exact hb)).1
    rw [hfa, hfb]
    exact applyOps_root_iff_connected ops n hops a b ha hb
  · intro x y hx hy
    have hops1 : ∀ p ∈ ops ++ [(a, b)], p.1 < n ∧ p.2 < n := by
      intro p hp
      rcases List.mem_append.mp hp with h | h
      · exact hops p h
      · rw [List.mem_singleton.mp h]
        exact ⟨ha, hb⟩
    have hops2 : ∀ p ∈ ops ++ [(a, b), (a, b)], p.1 < n ∧ p.2 < n := by
      intro p hp
      rcases List.mem_append.mp hp with h | h
      · exact hops p h
      · rcases List.mem_cons.mp h with h | h
        · rw [h]
          exact ⟨ha, hb⟩
        · rw [List.mem_singleton.mp h]
          exact ⟨ha, hb⟩
    rw [applyOps_root_iff_connected _ n hops2 x y hx hy,
      applyOps_root_iff_connected _ n hops1 x y hx hy]
    constructor
    · refine connected_mono ?_
      intro p hp
      simp only [List.mem_append, List.mem_cons, List.mem_singleton] at hp ⊢
      tauto
    · refine connected_mono ?_
      intro p hp
      simp only [List.mem_append, List.mem_cons, List.mem_singleton] at hp ⊢
      tauto

/-- Witness for C4 at `n = 3`, `ops = [(0, 1)]`, `a = 0`, `b = 1`. -/
theorem C4_unionfind_connectivity_witness :
    ((0:ℕ) < 3 ∧ (1:ℕ) < 3 ∧ ∀ p ∈ [((0:ℕ), (1:ℕ))], p.1 < 3 ∧ p.2 < 3) ∧
    ((((applyOps [(0, 1)] (UnionFind.init 3)).find 0).1
        = ((applyOps [(0, 1)] (UnionFind.init 3)).find 1).1 ↔ Connected [(0, 1)] 0 1) ∧
     (∀ x y, x < 3 → y < 3 →
      ((applyOps ([(0, 1)] ++ [(0, 1), (0, 1)]) (UnionFind.init 3)).root x
          = (applyOps ([(0, 1)] ++ [(0, 1), (0, 1)]) (UnionFind.init 3)).root y ↔
        (applyOps ([(0, 1)] ++ [(0, 1)]) (UnionFind.init 3)).root x
          = (applyOps ([(0, 1)] ++ [(0, 1)]) (UnionFind.init 3)).root y))) :=
  ⟨⟨by decide, by decide, by decide⟩,
    C4_unionfind_connectivity [(0, 1)] 3 0 1 (by decide) (by decide) (by decide)⟩

end ACad.UF

namespace ACad.GG

/-- C3: the merge+refine loop is modelled with its iteration cap of 50 as
structural fuel, so it is total (always terminates within the cap), and on
well-formed input boxes (min corner ≤ max corner, the invariant of every box
the program builds) with a nonnegative pad, no two distinct boxes of its
output still satisfy the merge predicate against each other, in either
order. -/
theorem C3_merge_refine_saturates (initial_bboxes : List BBox)
    (all_entity_bboxes : List (ℕ × BBox)) (pad merge_gap : ℝ)
    (hinit : ∀ b ∈ initial_bboxes, b.wf)
    (hent : ∀ e ∈ all_entity_bboxes, (e.2).wf) (hpad : 0 ≤ pad) :
    (refine_and_merge_bboxes initial_bboxes all_entity_bboxes pad merge_gap).Pairwise
      (fun a b => ¬bbox_should_merge a b merge_gap 0 ∧
        ¬bbox_should_merge b a merge_gap 0) := by
  have hsorted : ∀ b ∈ sortBBoxes initial_bboxes, b.wf := fun b hb =>
    hinit b (mem_sortBBoxes.mp hb)
  obtain ⟨hwf, hpw⟩ := refineLoop_post all_entity_bboxes pad merge_gap hent hpad 49
    (sortBBoxes initial_bboxes) hsorted
  unfold refine_and_merge_bboxes
  refine pairwise_and_flip _ ?_ hpw
  intro x hx y hy hnm hm
  exact hnm (bbox_should_merge_symm (hwf y hy) (hwf x hx) hm)

/-- Witness for C3 at one unit box, no entity boxes, zero pad and gap. -/
theorem C3_merge_refine_saturates_witness :
    ((∀ b ∈ [BBox.mk 0 0 1 1], b.wf) ∧ (∀ e ∈ ([] : List (ℕ × BBox)), (e.2).wf) ∧
      (0:ℝ) ≤ 0) ∧
    (refine_and_merge_bboxes [BBox.mk 0 0 1 1] [] 0 0).Pairwise
      (fun a b => ¬bbox_should_merge a b 0 0 ∧ ¬bbox_should_merge b a 0 0) := by
  have hinit : ∀ b ∈ [BBox.mk 0 0 1 1], b.wf := by
    intro b hb
    rw [List.mem_singleton] at hb
    subst hb
    exact ⟨by norm_num, by norm_num⟩
  have hent : ∀ e ∈ ([] : List (ℕ × BBox)), (e.2).wf := by
    intro e he
    exact absurd he (List.not_mem_nil e)
  exact ⟨⟨hinit, hent, le_refl 0⟩,
    C3_merge_refine_saturates [BBox.mk 0 0 1 1] [] 0 0 hinit hent (le_refl 0)⟩

end ACad.GG

namespace ACad.GG

/-- C6 (amended): only the bucket-key function fails fast on a non-positive
tolerance.  `qkey` raises (`ValueError`) whenever `tol <= 0`, but the
coordinate/radius quantiser `_qf` does **not** fail fast on a non-positive
grid step: it silently substitutes `grid = 0.01` and proceeds (see the
counterexample refuting the original blanket claim). -/
theorem C6_nonpositive_config (x y v tol grid : ℝ) (htol : tol ≤ 0)
    (hgrid : grid ≤ 0) :
    qkey x y tol = .error "tol must be > 0" ∧
    _qf v grid = ACad.rhe (v / (0.01 : ℝ)) := by
  constructor
  · unfold qkey
    rw [if_pos htol]
  · unfold _qf
    dsimp only
    rw [if_pos hgrid]

/-- Witness for C6 at `tol = 0`, `grid = 0`. -/
theorem C6_nonpositive_config_witness :
    ((0:ℝ) ≤ 0 ∧ (0:ℝ) ≤ 0) ∧
    (qkey 1 1 0 = .error "tol must be > 0" ∧
      _qf 1 0 = ACad.rhe ((1:ℝ) / (0.01 : ℝ))) :=
  ⟨⟨le_refl 0, le_refl 0⟩, C6_nonpositive_config 1 1 1 0 0 (le_refl 0) (le_refl 0)⟩

/-- Counterexample to the original C6: quantising with the non-positive grid
step 0 does not fail with a validation error — `_qf` substitutes the grid
0.01 and returns a value (`_qf 1 0 = round(1 / 0.01) = 100`). -/
theorem C6_counterexample : _qf 1 0 = 100 := by
  unfold _qf
  dsimp only
  rw [if_pos (le_refl (0:ℝ))]
  have h : (1:ℝ) / (0.01 : ℝ) = ((100:ℤ) : ℝ) := by norm_num
  rw [h, ACad.rhe_intCast]

end ACad.GG

namespace ACad.SL

theorem list_dist_comm (x y : List ℤ) (w : ℚ) : list_dist x y w = list_dist y x w := by
  unfold list_dist
  by_cases h1 : x = [] ∧ y = []
  · rw [if_pos h1, if_pos ⟨h1.2, h1.1⟩]
  · rw [if_neg h1, if_neg (show ¬(y = [] ∧ x = []) from fun h => h1 ⟨h.2, h.1⟩)]
    by_cases h2 : x = [] ∨ y = []
    · rw [if_pos h2, if_pos (Or.symm h2), abs_sub_comm]
    · rw [if_neg h2, if_neg (show ¬(y = [] ∨ x = []) from fun h => h2 (Or.symm h))]
      dsimp only
      have hd : ((List.range (min x.length y.length)).map
            (fun i => |((x.getD i 0 : ℤ) : ℚ) - ((y.getD i 0 : ℤ) : ℚ)|)).sum
          = ((List.range (min y.length x.length)).map
            (fun i => |((y.getD i 0 : ℤ) : ℚ) - ((x.getD i 0 : ℤ) : ℚ)|)).sum := by
        rw [min_comm]
        exact congrArg List.sum (List.map_congr_left (fun i _ => abs_sub_comm _ _))
      rw [hd, abs_sub_comm ((x.length : ℚ)) ((y.length : ℚ))]

theorem list_dist_self (x : List ℤ) (w : ℚ) : list_dist x x w = 0 := by
  unfold list_dist
  by_cases h : x = []
  · rw [if_pos ⟨h, h⟩]
  · rw [if_neg (show ¬(x = [] ∧ x = []) from fun hh => h hh.1),
      if_neg (show ¬(x = [] ∨ x = []) from fun hh => h (hh.elim id id))]
    dsimp only
    have hd : ((List.range (min x.length x.length)).map
          (fun i => |((x.getD i 0 : ℤ) : ℚ) - ((x.getD i 0 : ℤ) : ℚ)|)).sum = 0 := by
      have hmap : (List.range (min x.length x.length)).map
            (fun i => |((x.getD i 0 : ℤ) : ℚ) - ((x.getD i 0 : ℤ) : ℚ)|)
          = (List.range (min x.length x.length)).map (fun _ => (0 : ℚ)) :=
        List.map_congr_left (fun i _ => by rw [sub_self, abs_zero])
      rw [hmap]
      simp
    rw [hd]
    simp

/-- C10: the coarse pre-filter distance is symmetric —
`descriptor_distance(a, b) = descriptor_distance(b, a)` — and the
self-distance of every descriptor is zero. -/
theorem C10_descriptor_distance_symm_self (a b : SymbolDescriptor) :
    descriptor_distance a b = descriptor_distance b a ∧
      descriptor_distance a a = 0 := by
  constructor
  · unfold descriptor_distance
    dsimp only
    have hscore : (["LINE", "CIRCLE", "ARC", "LWPOLYLINE", "POLYLINE", "INSERT"].map
          (fun k => |((a.counts k : ℤ) : ℚ) - ((b.counts k : ℤ) : ℚ)| * 50)).sum
        = (["LINE", "CIRCLE", "ARC", "LWPOLYLINE", "POLYLINE", "INSERT"].map
          (fun k => |((b.counts k : ℤ) : ℚ) - ((a.counts k : ℤ) : ℚ)| * 50)).sum :=
      congrArg List.sum (List.map_congr_left (fun k _ => by rw [abs_sub_comm]))
    rw [hscore, list_dist_comm a.lengths_q, list_dist_comm a.radii_q,
      list_dist_comm a.angles_q, abs_sub_comm (((a.size_q.1 : ℤ)) : ℚ),
      abs_sub_comm (((a.size_q.2 : ℤ)) : ℚ)]
  · unfold descriptor_distance
    dsimp only
    have hscore : (["LINE", "CIRCLE", "ARC", "LWPOLYLINE", "POLYLINE", "INSERT"].map
          (fun k => |((a.counts k : ℤ) : ℚ) - ((a.counts k : ℤ) : ℚ)| * 50)).sum = 0 := by
      have hmap : (["LINE", "CIRCLE", "ARC", "LWPOLYLINE", "POLYLINE", "INSERT"].map
            (fun k => |((a.counts k : ℤ) : ℚ) - ((a.counts k : ℤ) : ℚ)| * 50))
          = (["LINE", "CIRCLE", "ARC", "LWPOLYLINE", "POLYLINE", "INSERT"].map
            (fun _ => (0 : ℚ))) :=
        List.map_congr_left (fun k _ => by rw [sub_self, abs_zero, zero_mul])
      rw [hmap]
      simp
    rw [hscore, list_dist_self, list_dist_self, list_dist_self]
    simp

end ACad.SL

namespace ACad

theorem le_rheQ (q : ℚ) : ⌊q⌋ ≤ rheQ q := by
  unfold rheQ
  split_ifs with h1 h2
  · exact le_refl _
  · omega
  · rw [round_eq]
    exact Int.floor_le_floor (by linarith)

theorem rheQ_le_ceil (q : ℚ) : rheQ q ≤ ⌈q⌉ := by
  unfold rheQ
  split_ifs with h1 h2
  all_goals try skip
  · have hlt : ⌊q⌋ < ⌈q⌉ := by
      have hfr : q - ⌊q⌋ = 1/2 := by
        rw [Int.self_sub_floor]
        exact h1
      have h2 : (⌊q⌋ : ℚ) < q := by linarith
      exact_mod_cast lt_of_lt_of_le h2 (Int.le_ceil q)
    omega
  · have hlt : ⌊q⌋ < ⌈q⌉ := by
      have hfr : q - ⌊q⌋ = 1/2 := by
        rw [Int.self_sub_floor]
        exact h1
      have h3 : (⌊q⌋ : ℚ) < q := by linarith
      exact_mod_cast lt_of_lt_of_le h3 (Int.le_ceil q)
    omega
  · rw [round_eq]
    have h1 : q + 1/2 ≤ (⌈q⌉ : ℚ) + 1/2 := by linarith [Int.le_ceil q]
    calc ⌊q + 1/2⌋ ≤ ⌊(⌈q⌉ : ℚ) + 1/2⌋ := Int.floor_le_floor h1
      _ = ⌈q⌉ + ⌊(1/2 : ℚ)⌋ := Int.floor_int_add _ _
      _ = ⌈q⌉ := by norm_num

theorem rheQ_bound {q : ℚ} {M : ℤ} (h1 : -(M : ℚ) ≤ q) (h2 : q ≤ (M : ℚ)) :
    -M ≤ rheQ q ∧ rheQ q ≤ M := by
  have hf : -M ≤ ⌊q⌋ := by
    rw [show (-M : ℤ) = ⌊((-M : ℤ) : ℚ)⌋ from (Int.floor_intCast (-M)).symm]
    exact Int.floor_le_floor (by push_cast; linarith)
  have hc : ⌈q⌉ ≤ M := by
    rw [show (M : ℤ) = ⌈((M : ℤ) : ℚ)⌉ from (Int.ceil_intCast M).symm]
    exact Int.ceil_le_ceil h2
  have hl := le_rheQ q
  have hr := rheQ_le_ceil q
  omega

end ACad

namespace ACad.SL

theorem int16wrap_eq {z : ℤ} (h1 : -32768 ≤ z) (h2 : z ≤ 32767) : int16wrap z = z := by
  unfold int16wrap
  rw [Int.emod_eq_of_lt (by omega) (by omega)]
  omega

theorem clip1_bounds (v : ℚ) : -1 ≤ clip1 v ∧ clip1 v ≤ 1 :=
  ⟨le_max_left _ _, max_le (by norm_num) (min_le_right v 1)⟩

/-- C7 (amended): for every point cloud and every scale `0 < s ≤ 32767` (so
the quantised values fit in int16 without wrap-around and the stored scale is
not falsy), decoding the encoded cloud returns each point clipped to
`[-1, 1]`, rounded at resolution `1/s`, and mapped back — i.e. encoding
followed by decoding equals the coordinate-wise quantisation
`round_half_even(clip(v) * s) / s`, not the identity claimed by the spec
(see the counterexample: quantisation loses information). -/
theorem C7_codec_roundtrip (points : List (ℚ × ℚ)) (s : ℤ) (hs1 : 0 < s)
    (hs2 : s ≤ 32767) :
    decode_point_cloud (encode_point_cloud points s)
      = points.map (fun p => (((ACad.rheQ (clip1 p.1 * (s : ℚ))) : ℚ) / (s : ℚ),
          ((ACad.rheQ (clip1 p.2 * (s : ℚ))) : ℚ) / (s : ℚ))) := by
  have hq : ∀ v : ℚ, -32768 ≤ ACad.rheQ (clip1 v * (s : ℚ)) ∧
      ACad.rheQ (clip1 v * (s : ℚ)) ≤ 32767 := by
    intro v
    obtain ⟨hc1, hc2⟩ := clip1_bounds v
    have hspos : (0 : ℚ) < (s : ℚ) := by exact_mod_cast hs1
    have hb1 : -((s : ℚ)) ≤ clip1 v * (s : ℚ) := by nlinarith
    have hb2 : clip1 v * (s : ℚ) ≤ (s : ℚ) := by nlinarith
    obtain ⟨hr1, hr2⟩ := ACad.rheQ_bound hb1 hb2
    omega
  by_cases hp : points = []
  · subst hp
    rfl
  · unfold encode_point_cloud decode_point_cloud
    rw [if_neg hp]
    dsimp only
    rw [if_neg (show ¬(s = 0) from by omega)]
    rw [if_neg (show ¬(points.length = 0 ∨ points.map _ = []) from by
      push_neg
      constructor
      · intro h
        exact hp (List.length_eq_zero.mp h)
      · simp [hp])]
    rw [List.map_map]
    apply List.map_congr_left
    intro p _
    simp only [Function.comp_apply]
    rw [int16wrap_eq (hq p.1).1 (hq p.1).2, int16wrap_eq (hq p.2).1 (hq p.2).2]

/-- Witness for C7 at the cloud `[(1/2, 0)]` and scale 1. -/
theorem C7_codec_roundtrip_witness :
    ((0 : ℤ) < 1 ∧ (1 : ℤ) ≤ 32767) ∧
    decode_point_cloud (encode_point_cloud [((1:ℚ)/2, 0)] 1)
      = [((1:ℚ)/2, 0)].map (fun p => (((ACad.rheQ (clip1 p.1 * ((1:ℤ) : ℚ))) : ℚ) / ((1:ℤ) : ℚ),
          ((ACad.rheQ (clip1 p.2 * ((1:ℤ) : ℚ))) : ℚ) / ((1:ℤ) : ℚ))) :=
  ⟨⟨by norm_num, by norm_num⟩, C7_codec_roundtrip [((1:ℚ)/2, 0)] 1 (by norm_num) (by norm_num)⟩

/-- Counterexample to the original C7: the cloud `[(1/2, 0)]` encoded at the
positive integer scale 1 decodes to `[(0, 0)]`, not to the encoded points —
quantisation is lossy, so decoding is not the exact inverse of encoding. -/
theorem C7_counterexample :
    decode_point_cloud (encode_point_cloud [((1:ℚ)/2, 0)] 1) ≠ [((1:ℚ)/2, 0)] := by
  have hc : clip1 ((1:ℚ)/2) = 1/2 := by
    unfold clip1
    rw [min_eq_left (by norm_num), max_eq_right (by norm_num)]
  have hc0 : clip1 (0:ℚ) = 0 := by
    unfold clip1
    rw [min_eq_left (by norm_num), max_eq_right (by norm_num)]
  have hr : ACad.rheQ ((1:ℚ)/2) = 0 := by
    unfold ACad.rheQ
    have hfr : Int.fract ((1:ℚ)/2) = 1/2 := by
      rw [Int.fract]
      norm_num [Int.floor_eq_iff]
    rw [if_pos hfr, if_pos (by norm_num [Int.floor_eq_iff] : Even ⌊(1:ℚ)/2⌋)]
    norm_num [Int.floor_eq_iff]
  have hr0 : ACad.rheQ (0:ℚ) = 0 := by
    unfold ACad.rheQ
    rw [if_neg (by rw [Int.fract_zero]; norm_num)]
    exact round_zero
  have hval : decode_point_cloud (encode_point_cloud [((1:ℚ)/2, 0)] 1) = [(0, 0)] := by
    unfold encode_point_cloud decode_point_cloud
    rw [if_neg (show ¬([((1:ℚ)/2, (0:ℚ))] = []) from by simp)]
    dsimp only
    rw [if_neg (show ¬((1:ℤ) = 0) from by norm_num)]
    rw [if_neg (show ¬(([((1:ℚ)/2, (0:ℚ))].length = 0) ∨
      ([((1:ℚ)/2, (0:ℚ))].map _ = [])) from by simp)]
    simp only [List.map_cons, List.map_nil]
    have h1 : clip1 ((1:ℚ)/2) * ((1:ℤ) : ℚ) = 1/2 := by
      rw [hc]
      norm_num
    have h2 : clip1 (0:ℚ) * ((1:ℤ) : ℚ) = 0 := by
      rw [hc0]
      norm_num
    rw [h1, h2, hr, hr0,
      show int16wrap 0 = 0 from int16wrap_eq (by norm_num) (by norm_num)]
    norm_num
  rw [hval]
  intro h
  rw [List.cons.injEq, Prod.mk.injEq] at h
  exact absurd h.1.1 (by norm_num)

end ACad.SL

namespace ACad.SL

theorem pdist_self (p : Pt) : pdist p p = 0 := by
  unfold pdist
  simp

theorem pdist_nonneg (p q : Pt) : 0 ≤ pdist p q := Real.sqrt_nonneg _

theorem foldl_min_le_self {l : List ℝ} (a : ℝ) : l.foldl min a ≤ a := by
  induction l generalizing a with
  | nil => exact le_refl a
  | cons x t ih => exact le_trans (ih (min a x)) (min_le_left a x)

theorem foldl_min_le_of_mem {l : List ℝ} {x : ℝ} (hx : x ∈ l) (a : ℝ) :
    l.foldl min a ≤ x := by
  induction l generalizing a with
  | nil => exact absurd hx (List.not_mem_nil x)
  | cons y t ih =>
    rw [List.foldl_cons]
    rcases List.mem_cons.mp hx with h | h
    · subst h
      exact le_trans (foldl_min_le_self (min a x)) (min_le_right a x)
    · exact ih h _

theorem foldl_min_nonneg {l : List ℝ} {a : ℝ} (ha : 0 ≤ a) (hl : ∀ x ∈ l, 0 ≤ x) :
    0 ≤ l.foldl min a := by
  induction l generalizing a with
  | nil => exact ha
  | cons x t ih =>
    rw [List.foldl_cons]
    exact ih (le_min ha (hl x (List.mem_cons_self x t)))
      (fun y hy => hl y (List.mem_cons_of_mem x hy))

theorem nnDist_nonneg (p : Pt) (b : List Pt) : 0 ≤ nnDist p b := by
  cases b with
  | nil => exact le_refl 0
  | cons q qs =>
    unfold nnDist
    refine foldl_min_nonneg (pdist_nonneg p q) ?_
    intro x hx
    obtain ⟨r, _, hr⟩ := List.mem_map.mp hx
    rw [← hr]
    exact pdist_nonneg p r

theorem nnDist_eq_zero_of_mem {p : Pt} {b : List Pt} (hp : p ∈ b) : nnDist p b = 0 := by
  cases b with
  | nil => exact absurd hp (List.not_mem_nil p)
  | cons q qs =>
    refine le_antisymm ?_ (nnDist_nonneg p (q :: qs))
    show (qs.map (pdist p)).foldl min (pdist p q) ≤ 0
    rcases List.mem_cons.mp hp with h | h
    · subst h
      rw [pdist_self]
      exact foldl_min_le_self 0
    · have hm : pdist p p ∈ qs.map (pdist p) := List.mem_map.mpr ⟨p, h, rfl⟩
      calc (qs.map (pdist p)).foldl min (pdist p q) ≤ pdist p p := foldl_min_le_of_mem hm _
        _ = 0 := pdist_self p

theorem mean_nn_zero {a b : List Pt} (ha : a ≠ []) (hb : b ≠ [])
    (hsub : ∀ p ∈ a, p ∈ b) : _mean_nn_distance a b = some 0 := by
  unfold _mean_nn_distance
  rw [if_neg (show ¬(a = [] ∨ b = []) from fun h => h.elim ha hb)]
  have hmap : a.map (fun p => nnDist p b) = a.map (fun _ => (0:ℝ)) :=
    List.map_congr_left (fun p hp => nnDist_eq_zero_of_mem (hsub p hp))
  have hsum : (a.map (fun p => nnDist p b)).sum = 0 := by
    rw [hmap]
    simp
  rw [hsum, zero_div]

theorem chamfer_zero_of_perm {a b : List Pt} (ha : a ≠ []) (hb : b ≠ [])
    (hab : ∀ p ∈ a, p ∈ b) (hba : ∀ p ∈ b, p ∈ a) :
    chamfer_distance a b true = some 0 := by
  unfold chamfer_distance
  dsimp only
  rw [if_neg (by decide), mean_nn_zero ha hb hab, mean_nn_zero hb ha hba]
  norm_num

theorem mean_nn_nonneg {a b : List Pt} {v : ℝ} (h : _mean_nn_distance a b = some v) :
    0 ≤ v := by
  unfold _mean_nn_distance at h
  by_cases hc : a = [] ∨ b = []
  · rw [if_pos hc] at h
    exact absurd h (by simp)
  · rw [if_neg hc] at h
    have hv := Option.some.inj h
    rw [← hv]
    apply div_nonneg
    · apply List.sum_nonneg
      intro x hx
      obtain ⟨p, _, hp⟩ := List.mem_map.mp hx
      rw [← hp]
      exact nnDist_nonneg p b
    · exact Nat.cast_nonneg _

theorem chamfer_nonneg {a b : List Pt} {v : ℝ}
    (h : chamfer_distance a b true = some v) : 0 ≤ v := by
  unfold chamfer_distance at h
  dsimp only at h
  rw [if_neg (by decide)] at h
  cases hma : _mean_nn_distance a b with
  | none =>
    rw [hma] at h
    exact absurd h (by simp)
  | some x =>
    cases hmb : _mean_nn_distance b a with
    | none =>
      rw [hma, hmb] at h
      exact absurd h (by simp)
    | some y =>
      rw [hma, hmb] at h
      have hv := Option.some.inj h
      have hx := mean_nn_nonneg hma
      have hy := mean_nn_nonneg hmb
      rw [← hv]
      linarith

theorem rotate_points_zero (P : List Pt) : rotate_points P 0 = P := by
  unfold rotate_points
  dsimp only
  rw [zero_mul, zero_div, Real.cos_zero, Real.sin_zero]
  have hmap : P.map (fun p => ((1:ℝ) * p.1 - 0 * p.2, (0:ℝ) * p.1 + 1 * p.2))
      = P.map (fun p => p) :=
    List.map_congr_left (fun p _ => by
      rw [Prod.mk.injEq]
      constructor <;> ring)
  rw [hmap, List.map_id']

theorem cbr_no_improve (P Q : List Pt) (ang : ℝ)
    (hlt : optLt (chamfer_distance (rotate_points P ang) Q true) (some (0:ℝ))) :
    False := by
  cases hc : chamfer_distance (rotate_points P ang) Q true with
  | none =>
    rw [hc] at hlt
    exact hlt
  | some v =>
    rw [hc] at hlt
    have hv : v < 0 := hlt
    have h0 := chamfer_nonneg hc
    linarith

open Classical in
theorem cbr_fold_fixed (P Q : List Pt) :
    ∀ angles : List ℝ, angles.foldl
      (fun best ang =>
        if optLt (chamfer_distance (rotate_points P ang) Q true) best.1
        then (chamfer_distance (rotate_points P ang) Q true, ang) else best)
      ((some (0:ℝ)), (0:ℝ)) = (some 0, 0) := by
  intro angles
  induction angles with
  | nil => rfl
  | cons a t ih =>
    rw [List.foldl_cons]
    dsimp only
    rw [if_neg (fun hlt => cbr_no_improve P Q a hlt)]
    exact ih

open Classical in
theorem cbr_self_zero (P : List Pt) (rest : List ℝ) (hP : P ≠ []) :
    chamfer_best_rotation P P (0 :: rest) true = (some 0, 0) := by
  have hself0 : chamfer_distance (rotate_points P 0) P true = some 0 := by
    rw [rotate_points_zero]
    exact chamfer_zero_of_perm hP hP (fun p hp => hp) (fun p hp => hp)
  unfold chamfer_best_rotation
  rw [List.foldl_cons]
  dsimp only
  rw [hself0, if_pos (show optLt (some (0:ℝ)) none from trivial)]
  exact cbr_fold_fixed P P rest

/-- C8 (amended): for every non-empty cloud `P` and every angle list that
**starts** with 0° (as the default `[0, 90, 180, 270]` does),
`chamfer_best_rotation(P, P)` returns the score exactly 0 at angle 0.  The
original claim — any angle set merely *including* 0° — is refuted by the
counterexample: the loop keeps the first strictly-best angle, so a symmetric
cloud can report a non-zero angle listed before 0. -/
theorem C8_chamfer_best_rotation_self (P : List Pt) (rest : List ℝ) (hP : P ≠ []) :
    chamfer_best_rotation P P (0 :: rest) true = (some 0, 0) :=
  cbr_self_zero P rest hP

/-- Witness for C8 on the one-point cloud and the angle list `[0]`. -/
theorem C8_chamfer_best_rotation_self_witness :
    ([((0:ℝ), (0:ℝ))] ≠ ([] : List Pt)) ∧
    chamfer_best_rotation [((0:ℝ), (0:ℝ))] [((0:ℝ), (0:ℝ))] [0] true
      = (some 0, 0) :=
  ⟨by simp, C8_chamfer_best_rotation_self [((0:ℝ), (0:ℝ))] [] (by simp)⟩

open Classical in
/-- Counterexample to the original C8: for the 4-point square cloud, over the
angle set `[90, 0]` (which includes 0°), `chamfer_best_rotation(P, P)` returns
the angle 90, not 0 — the square is 90°-symmetric, 90° is tried first, also
scores 0, and the later 0° does not strictly improve on it. -/
theorem C8_counterexample :
    (0:ℝ) ∈ ([90, 0] : List ℝ) ∧
    chamfer_best_rotation [((1:ℝ), (0:ℝ)), (0, 1), (-1, 0), (0, -1)]
      [((1:ℝ), (0:ℝ)), (0, 1), (-1, 0), (0, -1)] [90, 0] true = (some 0, 90) ∧
    (90:ℝ) ≠ 0 := by
  refine ⟨by simp, ?_, by norm_num⟩
  have hrot90 : rotate_points [((1:ℝ), (0:ℝ)), (0, 1), (-1, 0), (0, -1)] 90
      = [((0:ℝ), (1:ℝ)), (-1, 0), (0, -1), (1, 0)] := by
    unfold rotate_points
    dsimp only
    rw [show (90:ℝ) * Real.pi / 180 = Real.pi / 2 by ring,
      Real.cos_pi_div_two, Real.sin_pi_div_two]
    simp only [List.map_cons, List.map_nil]
    norm_num
  have hch90 : chamfer_distance
      (rotate_points [((1:ℝ), (0:ℝ)), (0, 1), (-1, 0), (0, -1)] 90)
      [((1:ℝ), (0:ℝ)), (0, 1), (-1, 0), (0, -1)] true = some 0 := by
    rw [hrot90]
    refine chamfer_zero_of_perm (by simp) (by simp) ?_ ?_
    · intro p hp
      simp only [List.mem_cons, List.not_mem_nil, or_false] at hp ⊢
      tauto
    · intro p hp
      simp only [List.mem_cons, List.not_mem_nil, or_false] at hp ⊢
      tauto
  have hch0 : chamfer_distance
      (rotate_points [((1:ℝ), (0:ℝ)), (0, 1), (-1, 0), (0, -1)] 0)
      [((1:ℝ), (0:ℝ)), (0, 1), (-1, 0), (0, -1)] true = some 0 := by
    rw [rotate_points_zero]
    exact chamfer_zero_of_perm (by simp) (by simp) (fun p hp => hp) (fun p hp => hp)
  unfold chamfer_best_rotation
  rw [List.foldl_cons, List.foldl_cons, List.foldl_nil]
  dsimp only
  rw [hch90, if_pos (show optLt (some (0:ℝ)) none from trivial)]
  dsimp only
  rw [hch0, if_neg (show ¬optLt (some (0:ℝ)) (some (0:ℝ)) from
    fun hlt => absurd (show (0:ℝ) < 0 from hlt) (lt_irrefl 0))]

end ACad.SL

namespace ACad.SL

theorem mean_nn_nil_left (a : List Pt) : _mean_nn_distance [] a = none := by
  unfold _mean_nn_distance
  rw [if_pos (Or.inl rfl)]

theorem mean_nn_nil_right (a : List Pt) : _mean_nn_distance a [] = none := by
  unfold _mean_nn_distance
  rw [if_pos (Or.inr rfl)]

theorem chamfer_distance_nil_right (a : List Pt) : chamfer_distance a [] true = none := by
  unfold chamfer_distance
  dsimp only
  rw [if_neg (by decide), mean_nn_nil_right]

open Classical in
theorem cbr_nil_fold (tpl : List Pt) : ∀ angles : List ℝ,
    angles.foldl (fun best ang =>
      if optLt (chamfer_distance (rotate_points tpl ang) [] true) best.1
      then (chamfer_distance (rotate_points tpl ang) [] true, ang) else best)
      ((none : Option ℝ), (0:ℝ)) = (none, 0) := by
  intro angles
  induction angles with
  | nil => rfl
  | cons a t ih =>
    rw [List.foldl_cons]
    dsimp only
    rw [chamfer_distance_nil_right,
      if_neg (show ¬optLt (none : Option ℝ) none from fun h => h)]
    exact ih

open Classical in
theorem cbr_nil_candidate (tpl : List Pt) (angles : List ℝ) :
    chamfer_best_rotation tpl [] angles true = (none, 0) := by
  unfold chamfer_best_rotation
  dsimp only
  exact cbr_nil_fold tpl angles

open Classical in
theorem matchCluster_nil_pts (library : List (String × SymbolDescriptor))
    (template_points : List (String × List Pt)) (desc : SymbolDescriptor)
    (score_threshold : ℚ) (coarse_topk : ℕ) (chamfer_threshold : ℝ) :
    matchCluster library template_points desc [] score_threshold coarse_topk
      chamfer_threshold = none := by
  unfold matchCluster
  dsimp only
  by_cases hc : library.filterMap (fun e =>
      if descriptor_distance desc e.2 ≤ score_threshold
      then some (descriptor_distance desc e.2, e.1) else none) = []
  · rw [if_pos hc]
  · rw [if_neg hc]
    suffices h : ∀ (l : List (ℚ × String)) (st0 : MatchState),
        st0.best_name = none → st0.best_chamfer = none →
        ((l.foldl (fun (st : MatchState) ce =>
            match template_points.lookup ce.2 with
            | none => st
            | some tpl =>
              let cb := chamfer_best_rotation tpl ([] : List Pt)
              if optLt cb.1 st.best_chamfer then ⟨some ce.2, some ce.1, cb.1, cb.2⟩
              else st)
          st0).best_name = none) by
      rw [if_pos (Or.inl (h _ _ rfl rfl))]
    intro l
    induction l with
    | nil =>
      intro st0 h1 _
      exact h1
    | cons ce t ih =>
      intro st0 h1 h2
      rw [List.foldl_cons]
      cases hlk : template_points.lookup ce.2 with
      | none =>
        refine ih _ ?_ ?_
        · exact h1
        · exact h2
      | some tpl =>
        refine ih _ ?_ ?_
        · dsimp only
          rw [cbr_nil_candidate tpl]
          dsimp only
          rw [if_neg (show ¬optLt (none : Option ℝ) st0.best_chamfer from fun h => h)]
          exact h1
        · dsimp only
          rw [cbr_nil_candidate tpl]
          dsimp only
          rw [if_neg (show ¬optLt (none : Option ℝ) st0.best_chamfer from fun h => h)]
          exact h2

end ACad.SL

namespace ACad.SL

/-- C9: empty/degenerate extractions are excluded from matching without
error: an entity yielding no points and no primitives gets no geometry record
(no fingerprint), the candidate scan simply skips it and continues with the
rest, the mean nearest-neighbour distance of an empty cloud is infinite
(`none`), and a cluster with an empty point set can never be reported as a
match by the descriptor+Chamfer loop. -/
theorem C9_empty_excluded (grid : ℝ) (ents : List (List Pt × List GG.Prim))
    (a : List Pt) (library : List (String × SymbolDescriptor))
    (template_points : List (String × List Pt)) (desc : SymbolDescriptor)
    (score_threshold : ℚ) (coarse_topk : ℕ) (chamfer_threshold : ℝ) :
    GG._compute_geom_from_entity [] [] grid = none ∧
    GG.candidateGeoms (([], []) :: ents) grid = GG.candidateGeoms ents grid ∧
    _mean_nn_distance [] a = none ∧
    _mean_nn_distance a [] = none ∧
    matchCluster library template_points desc [] score_threshold coarse_topk
      chamfer_threshold = none := by
  have h1 : GG._compute_geom_from_entity [] [] grid = none := by
    unfold GG._compute_geom_from_entity
    rw [if_pos ⟨rfl, rfl⟩]
  refine ⟨h1, ?_, mean_nn_nil_left a, mean_nn_nil_right a,
    matchCluster_nil_pts library template_points desc score_threshold coarse_topk
      chamfer_threshold⟩
  unfold GG.candidateGeoms
  rw [List.filterMap_cons]
  dsimp only
  rw [h1]

end ACad.SL

namespace ACad.Lib

theorem lookup_none_iff {β : Type*} (l : List (String × β)) (a : String) :
    l.lookup a = none ↔ a ∉ l.map Prod.fst := by
  induction l with
  | nil => simp [List.lookup]
  | cons e t ih =>
    obtain ⟨k, v⟩ := e
    by_cases h : a = k
    · subst h
      simp [List.lookup]
    · simp [List.lookup, beq_false_of_ne h, ih, h]

theorem lookup_isSome_iff {β : Type*} (l : List (String × β)) (a : String) :
    (l.lookup a).isSome ↔ a ∈ l.map Prod.fst := by
  rw [Option.isSome_iff_ne_none, ne_eq, lookup_none_iff, not_not]

theorem lookup_append {β : Type*} (l1 l2 : List (String × β)) (a : String) :
    (l1 ++ l2).lookup a
      = match l1.lookup a with
        | some v => some v
        | none => l2.lookup a := by
  induction l1 with
  | nil => simp [List.lookup]
  | cons e t ih =>
    obtain ⟨k, v⟩ := e
    by_cases h : a = k
    · subst h
      simp [List.lookup]
    · simp [List.lookup, beq_false_of_ne h, ih]

theorem lookup_cons_self {β : Type*} (k : String) (v : β) (t : List (String × β)) :
    List.lookup k ((k, v) :: t) = some v := by
  simp [List.lookup]

theorem lookup_cons_ne {β : Type*} {a k : String} (h : a ≠ k) (v : β)
    (t : List (String × β)) : List.lookup a ((k, v) :: t) = List.lookup a t := by
  simp [List.lookup, beq_false_of_ne h]

theorem lookup_map_update {π ε : Type*} (l : List (String × LibItem π ε)) (gid : String)
    (d : String) (ex : ε) (a : String) :
    (l.map (fun e => if e.1 = gid then (e.1, updateItem e.2 d ex) else e)).lookup a
      = if a = gid then (l.lookup a).map (fun it => updateItem it d ex)
        else l.lookup a := by
  induction l with
  | nil => by_cases h : a = gid <;> simp [List.lookup, h]
  | cons e t ih =>
    obtain ⟨k, v⟩ := e
    rw [List.map_cons]
    dsimp only
    by_cases hk : k = gid
    · subst hk
      rw [if_pos rfl]
      by_cases ha : a = k
      · subst ha
        rw [lookup_cons_self, lookup_cons_self, if_pos rfl]
        rfl
      · rw [lookup_cons_ne ha, lookup_cons_ne ha, ih]
    · rw [if_neg hk]
      by_cases ha : a = k
      · subst ha
        rw [lookup_cons_self, lookup_cons_self, if_neg hk]
      · rw [lookup_cons_ne ha, lookup_cons_ne ha, ih]

theorem map_update_keys {π ε : Type*} (l : List (String × LibItem π ε)) (gid : String)
    (d : String) (ex : ε) :
    (l.map (fun e => if e.1 = gid then (e.1, updateItem e.2 d ex) else e)).map Prod.fst
      = l.map Prod.fst := by
  rw [List.map_map]
  apply List.map_congr_left
  intro e _
  by_cases he : e.1 = gid
  · simp only [Function.comp_apply, if_pos he]
  · simp only [Function.comp_apply, if_neg he]

theorem indexOccurrence_keys {π ε : Type*} (l : List (String × LibItem π ε))
    (gid : String) (p : π) (d : String) (ex : ε) (hd : d ≠ "") :
    (indexOccurrence l gid p d ex).map Prod.fst
      = if gid ∈ l.map Prod.fst then l.map Prod.fst
        else l.map Prod.fst ++ [gid] := by
  unfold indexOccurrence
  rw [if_neg hd]
  dsimp only
  by_cases h : (l.lookup gid).isSome
  · rw [if_pos h, map_update_keys, if_pos ((lookup_isSome_iff l gid).mp h)]
  · rw [if_neg h, map_update_keys, List.map_append,
      if_neg (fun hm => h ((lookup_isSome_iff l gid).mpr hm))]
    rfl

theorem lookup_indexOccurrence_self {π ε : Type*} (l : List (String × LibItem π ε))
    (gid : String) (p : π) (d : String) (ex : ε) (hd : d ≠ "") :
    (indexOccurrence l gid p d ex).lookup gid
      = some (updateItem ((l.lookup gid).getD ⟨p, [], []⟩) d ex) := by
  unfold indexOccurrence
  rw [if_neg hd]
  dsimp only
  by_cases h : (l.lookup gid).isSome
  · rw [if_pos h, lookup_map_update, if_pos rfl]
    obtain ⟨v, hv⟩ := Option.isSome_iff_exists.mp h
    rw [hv]
    rfl
  · have hnone : l.lookup gid = none := Option.not_isSome_iff_eq_none.mp h
    rw [if_neg h, lookup_map_update, if_pos rfl, lookup_append, hnone]
    simp [List.lookup]

theorem lookup_indexOccurrence_ne {π ε : Type*} (l : List (String × LibItem π ε))
    (gid : String) (p : π) (d : String) (ex : ε) (hd : d ≠ "") {k : String}
    (hk : k ≠ gid) :
    (indexOccurrence l gid p d ex).lookup k = l.lookup k := by
  unfold indexOccurrence
  rw [if_neg hd]
  dsimp only
  by_cases h : (l.lookup gid).isSome
  · rw [if_pos h, lookup_map_update, if_neg hk]
  · rw [if_neg h, lookup_map_update, if_neg hk, lookup_append]
    cases hlk : l.lookup k with
    | none => simp [List.lookup, beq_false_of_ne hk]
    | some v => rfl

end ACad.Lib

namespace ACad.Lib

theorem updateItem_descs_grow {π ε : Type*} (it : LibItem π ε) (d : String) (ex : ε) :
    List.IsPrefix it.descs (updateItem it d ex).descs := by
  unfold updateItem
  dsimp only
  split_ifs with h
  · exact List.prefix_refl _
  · exact ⟨[d], rfl⟩

theorem updateItem_examples {π ε : Type*} (it : LibItem π ε) (d : String) (ex : ε) :
    ∃ k, (k = 0 ∨ k + 19 = it.examples.length) ∧
      (updateItem it d ex).examples = it.examples.drop k ++ [ex] := by
  unfold updateItem
  dsimp only
  by_cases h : 20 < (it.examples ++ [ex]).length
  · refine ⟨(it.examples ++ [ex]).length - 20, Or.inr ?_, ?_⟩
    · simp only [List.length_append, List.length_cons, List.length_nil] at h ⊢
      omega
    · rw [if_pos h, List.drop_append_of_le_length (by
        simp only [List.length_append, List.length_cons, List.length_nil]
        omega)]
  · exact ⟨0, Or.inl rfl, by rw [if_neg h, List.drop_zero]⟩

theorem updateItem_examples_len {π ε : Type*} (it : LibItem π ε) (d : String) (ex : ε) :
    (updateItem it d ex).examples.length ≤ 20 := by
  unfold updateItem
  dsimp only
  split_ifs with h
  · rw [List.length_drop]
    simp only [List.length_append, List.length_cons, List.length_nil] at h ⊢
    omega
  · simp only [List.length_append, List.length_cons, List.length_nil] at h ⊢
    omega

theorem updateItem_last {π ε : Type*} (it : LibItem π ε) (d : String) (ex : ε) :
    ∃ t, (updateItem it d ex).examples = t ++ [ex] := by
  obtain ⟨k, _, heq⟩ := updateItem_examples it d ex
  exact ⟨_, heq⟩

theorem updateItem_pair {π ε : Type*} {it : LibItem π ε} {e1 : ε} (t : List ε)
    (ht : it.examples = t ++ [e1]) (d : String) (e2 : ε) :
    ∃ t', (updateItem it d e2).examples = t' ++ [e1, e2] := by
  obtain ⟨k, hk, heq⟩ := updateItem_examples it d e2
  have hkt : k ≤ t.length := by
    rcases hk with h | h
    · omega
    · rw [ht] at h
      simp only [List.length_append, List.length_cons, List.length_nil] at h
      omega
  refine ⟨t.drop k, ?_⟩
  rw [heq, ht, List.drop_append_of_le_length hkt, List.append_assoc]
  rfl

/-- C2: indexing the same geometry id twice (with non-empty labels, starting
from any well-formed index whose keys are distinct) leaves exactly one entry
for that id; both example occurrences are appended — the entry's bounded
example history ends with them; and no existing entry is deleted: every
previously indexed id still resolves, with its label list preserved as a
prefix (labels are appended, never replaced). -/
theorem C2_index_twice (π ε : Type) (items : List (String × LibItem π ε))
    (gid : String) (p1 p2 : π) (d1 d2 : String) (e1 e2 : ε)
    (hnd : (items.map Prod.fst).Nodup) (hd1 : d1 ≠ "") (hd2 : d2 ≠ "") :
    (((indexOccurrence (indexOccurrence items gid p1 d1 e1) gid p2 d2 e2).map
        Prod.fst).count gid = 1) ∧
    (∃ it, (indexOccurrence (indexOccurrence items gid p1 d1 e1) gid p2 d2 e2).lookup gid
        = some it ∧ List.IsSuffix [e1, e2] it.examples ∧ it.examples.length ≤ 20) ∧
    (∀ k it0, items.lookup k = some it0 →
      ∃ it', (indexOccurrence (indexOccurrence items gid p1 d1 e1) gid p2 d2 e2).lookup k
          = some it' ∧ List.IsPrefix it0.descs it'.descs) := by
  have hl1 : (indexOccurrence items gid p1 d1 e1).lookup gid
      = some (updateItem ((items.lookup gid).getD ⟨p1, [], []⟩) d1 e1) :=
    lookup_indexOccurrence_self items gid p1 d1 e1 hd1
  have hl2 : (indexOccurrence (indexOccurrence items gid p1 d1 e1) gid p2 d2 e2).lookup gid
      = some (updateItem (updateItem ((items.lookup gid).getD ⟨p1, [], []⟩) d1 e1) d2 e2) := by
    rw [lookup_indexOccurrence_self _ gid p2 d2 e2 hd2, hl1]
    rfl
  have hk1 := indexOccurrence_keys items gid p1 d1 e1 hd1
  have hmem1 : gid ∈ (indexOccurrence items gid p1 d1 e1).map Prod.fst := by
    rw [hk1]
    split_ifs with h
    · exact h
    · exact List.mem_append_right _ (List.mem_singleton.mpr rfl)
  have hk2 := indexOccurrence_keys (indexOccurrence items gid p1 d1 e1) gid p2 d2 e2 hd2
  rw [if_pos hmem1] at hk2
  have hcount1 : ((indexOccurrence items gid p1 d1 e1).map Prod.fst).count gid = 1 := by
    rw [hk1]
    split_ifs with h
    · have hpos : 0 < (items.map Prod.fst).count gid := List.count_pos_iff.mpr h
      have hle : (items.map Prod.fst).count gid ≤ 1 := List.nodup_iff_count_le_one.mp hnd gid
      omega
    · rw [List.count_append, List.count_eq_zero_of_not_mem h]
      simp
  refine ⟨by rw [hk2]; exact hcount1, ⟨_, hl2, ?_, updateItem_examples_len _ _ _⟩, ?_⟩
  · obtain ⟨t, ht⟩ := updateItem_last ((items.lookup gid).getD ⟨p1, [], []⟩) d1 e1
    obtain ⟨t', ht'⟩ := updateItem_pair t ht d2 e2
    exact ⟨t', ht'.symm⟩
  · intro k it0 hk0
    by_cases hkg : k = gid
    · subst hkg
      refine ⟨_, hl2, ?_⟩
      have hbase : (items.lookup k).getD ⟨p1, [], []⟩ = it0 := by
        rw [hk0]
        rfl
      rw [hbase]
      exact (updateItem_descs_grow it0 d1 e1).trans (updateItem_descs_grow _ d2 e2)
    · refine ⟨it0, ?_, List.prefix_refl _⟩
      rw [lookup_indexOccurrence_ne _ gid p2 d2 e2 hd2 hkg,
        lookup_indexOccurrence_ne _ gid p1 d1 e1 hd1 hkg, hk0]

/-- Witness for C2: empty index, geometry id `"g"`, labels `"a"`, `"b"`,
example records 1 and 2. -/
theorem C2_index_twice_witness :
    ((([] : List (String × LibItem ℕ ℕ)).map Prod.fst).Nodup ∧
      "a" ≠ "" ∧ "b" ≠ "") ∧
    ((((indexOccurrence (indexOccurrence ([] : List (String × LibItem ℕ ℕ)) "g" 0 "a" 1)
        "g" 0 "b" 2).map Prod.fst).count "g" = 1) ∧
    (∃ it, (indexOccurrence (indexOccurrence ([] : List (String × LibItem ℕ ℕ)) "g" 0 "a" 1)
        "g" 0 "b" 2).lookup "g"
        = some it ∧ List.IsSuffix [1, 2] it.examples ∧ it.examples.length ≤ 20) ∧
    (∀ k it0, ([] : List (String × LibItem ℕ ℕ)).lookup k = some it0 →
      ∃ it', (indexOccurrence (indexOccurrence ([] : List (String × LibItem ℕ ℕ)) "g" 0 "a" 1)
          "g" 0 "b" 2).lookup k
          = some it' ∧ List.IsPrefix it0.descs it'.descs)) :=
  ⟨⟨by simp, by decide, by decide⟩,
    C2_index_twice ℕ ℕ [] "g" 0 0 "a" "b" 1 2 (by simp) (by decide) (by decide)⟩

end ACad.Lib

namespace ACad.GG

theorem enumFrom_mem_eq : ∀ (l : List RefItem) (n : ℕ) (p : ℕ × RefItem),
    p ∈ List.enumFrom n l →
    ∃ j, ∃ hj : j < l.length, p.1 = n + j ∧ p.2 = l.get ⟨j, hj⟩ := by
  intro l
  induction l with
  | nil =>
    intro n p hp
    exact absurd hp (by simp [List.enumFrom])
  | cons x t ih =>
    intro n p hp
    rcases List.mem_cons.mp hp with h | h
    · refine ⟨0, by simp, ?_, ?_⟩
      · rw [h]
        rfl
      · rw [h]
        rfl
    · obtain ⟨j, hj, h1, h2⟩ := ih (n + 1) p h
      refine ⟨j + 1, by simpa using Nat.succ_lt_succ hj, ?_, ?_⟩
      · rw [h1]
        omega
      · rw [h2]
        rfl

theorem bestRef_fold_inv (cand : CandGeom) (i : ℕ) :
    ∀ (l : List (ℕ × RefItem)) (init : Option BestMatch),
      (∀ p ∈ l, p.1 = i + 1 → (0 < p.2.stats.n_primitives ∧ 0 < cand.stats.n_primitives ∧
        ((cand.stats.n_primitives : ℚ) / (p.2.stats.n_primitives : ℚ) < 1/2 ∨
          2 < (cand.stats.n_primitives : ℚ) / (p.2.stats.n_primitives : ℚ)))) →
      (∀ b, init = some b → b.ref_idx ≠ i + 1) →
      ∀ b, l.foldl (fun best ri =>
        if ri.2.sig ≠ "" ∧ cand.sig ≠ ri.2.sig then best
        else
          if 0 < ri.2.stats.n_primitives ∧ 0 < cand.stats.n_primitives ∧
              ((cand.stats.n_primitives : ℚ) / (ri.2.stats.n_primitives : ℚ) < 1/2 ∨
                2 < (cand.stats.n_primitives : ℚ) / (ri.2.stats.n_primitives : ℚ)) then best
          else
            match best with
            | none => some ⟨_phash_hamming cand.phash ri.2.phash,
                _stats_similarity_score ri.2.stats cand.stats, ri.1, ri.2.gid⟩
            | some b => if keyLt (_phash_hamming cand.phash ri.2.phash,
                  _stats_similarity_score ri.2.stats cand.stats) (b.dist, b.stats_score)
                then some ⟨_phash_hamming cand.phash ri.2.phash,
                  _stats_similarity_score ri.2.stats cand.stats, ri.1, ri.2.gid⟩
                else some b) init = some b → b.ref_idx ≠ i + 1 := by
  intro l
  induction l with
  | nil =>
    intro init _ hinit b hb
    exact hinit b hb
  | cons p t ih =>
    intro init hl hinit b hb
    rw [List.foldl_cons] at hb
    refine ih _ (fun q hq => hl q (List.mem_cons_of_mem p hq)) ?_ b hb
    intro b' hb'
    by_cases hsig : p.2.sig ≠ "" ∧ cand.sig ≠ p.2.sig
    · rw [if_pos hsig] at hb'
      exact hinit b' hb'
    · rw [if_neg hsig] at hb'
      by_cases hgate : 0 < p.2.stats.n_primitives ∧ 0 < cand.stats.n_primitives ∧
          ((cand.stats.n_primitives : ℚ) / (p.2.stats.n_primitives : ℚ) < 1/2 ∨
            2 < (cand.stats.n_primitives : ℚ) / (p.2.stats.n_primitives : ℚ))
      · rw [if_pos hgate] at hb'
        exact hinit b' hb'
      · rw [if_neg hgate] at hb'
        have hne : p.1 ≠ i + 1 := fun h => hgate (hl p (List.mem_cons_self p t) h)
        cases hinit0 : init with
        | none =>
          rw [hinit0] at hb'
          dsimp only at hb'
          have hb'' : b' = ⟨_phash_hamming cand.phash p.2.phash,
              _stats_similarity_score p.2.stats cand.stats, p.1, p.2.gid⟩ :=
            (Option.some.inj hb').symm
          rw [hb'']
          exact hne
        | some b0 =>
          rw [hinit0] at hb'
          dsimp only at hb'
          by_cases hklt : keyLt (_phash_hamming cand.phash p.2.phash,
              _stats_similarity_score p.2.stats cand.stats) (b0.dist, b0.stats_score)
          · rw [if_pos hklt] at hb'
            have hb'' : b' = ⟨_phash_hamming cand.phash p.2.phash,
                _stats_similarity_score p.2.stats cand.stats, p.1, p.2.gid⟩ :=
              (Option.some.inj hb').symm
            rw [hb'']
            exact hne
          · rw [if_neg hklt] at hb'
            have hb'' : b' = b0 := (Option.some.inj hb').symm
            rw [hb'']
            exact hinit b0 hinit0

/-- C5 (amended): the candidate/reference primitive-count-ratio gate exists
only in the **fingerprint** match path: there, a reference whose count ratio
with the candidate falls outside `[0.5, 2.0]` (both counts positive) is
never the selected best match, whatever its Hamming distance or stats
score.  The descriptor+Chamfer path of `recognize_replace_symbols.py` has no
such gate — the counterexample shows it accepting a reference whose
primitive count the candidate exceeds threefold. -/
theorem C5_count_ratio_gate (cand : CandGeom) (refs : List RefItem) (i : ℕ)
    (hi : i < refs.length)
    (hgate : 0 < (refs.get ⟨i, hi⟩).stats.n_primitives ∧
      0 < cand.stats.n_primitives ∧
      ((cand.stats.n_primitives : ℚ) / ((refs.get ⟨i, hi⟩).stats.n_primitives : ℚ) < 1/2 ∨
        2 < (cand.stats.n_primitives : ℚ) / ((refs.get ⟨i, hi⟩).stats.n_primitives : ℚ))) :
    ∀ b, bestRef cand refs = some b → b.ref_idx ≠ i + 1 := by
  intro b hb
  unfold bestRef at hb
  dsimp only at hb
  refine bestRef_fold_inv cand i (List.enumFrom 1 refs) none ?_
    (fun b h => Option.noConfusion h) b hb
  intro p hp hpi
  obtain ⟨j, hj, h1, h2⟩ := enumFrom_mem_eq refs 1 p hp
  have hji : j = i := by omega
  subst hji
  rw [h2]
  exact hgate

/-- Witness for C5: one reference with 1 primitive, a candidate with 3. -/
theorem C5_count_ratio_gate_witness :
    ((0:ℕ) < 1 ∧ ((0:ℤ) < 1 ∧ (0:ℤ) < 3 ∧ (((3:ℚ)/(1:ℚ) < 1/2) ∨ (2:ℚ) < (3:ℚ)/(1:ℚ)))) ∧
    (∀ b, bestRef ⟨0, ⟨3, 3, 3, 0, 0⟩, ""⟩ [⟨0, ⟨1, 1, 1, 0, 0⟩, 7, ""⟩] = some b →
      b.ref_idx ≠ 0 + 1) :=
  ⟨⟨by norm_num, by norm_num, by norm_num, Or.inr (by norm_num)⟩,
    C5_count_ratio_gate ⟨0, ⟨3, 3, 3, 0, 0⟩, ""⟩ [⟨0, ⟨1, 1, 1, 0, 0⟩, 7, ""⟩] 0
      (by norm_num) ⟨by norm_num, by norm_num, Or.inr (by norm_num)⟩⟩

end ACad.GG

namespace ACad.SL

open Classical in
/-- Counterexample to the original C5: in the descriptor+Chamfer match loop
there is no count-ratio gate.  A candidate whose `LINE` count (3) is three
times the reference's (1) — a ratio outside `[0.5, 2.0]` — is still accepted
and reported as the match `"R"`. -/
theorem C5_counterexample :
    (⟨fun k => if k = "LINE" then 3 else 0, [], [], [],
      (0, 0)⟩ : SymbolDescriptor).counts "LINE" = 3 ∧
    (⟨fun k => if k = "LINE" then 1 else 0, [], [], [],
      (0, 0)⟩ : SymbolDescriptor).counts "LINE" = 1 ∧
    matchCluster
      [("R", ⟨fun k => if k = "LINE" then 1 else 0, [], [], [], (0, 0)⟩)]
      [("R", [((0:ℝ), (0:ℝ))])]
      ⟨fun k => if k = "LINE" then 3 else 0, [], [], [], (0, 0)⟩
      [((0:ℝ), (0:ℝ))] 200 1 1 = some "R" := by
  refine ⟨by simp, by simp, ?_⟩
  have hdd : descriptor_distance
      (⟨fun k => if k = "LINE" then 3 else 0, [], [], [], (0, 0)⟩ : SymbolDescriptor)
      (⟨fun k => if k = "LINE" then 1 else 0, [], [], [], (0, 0)⟩ : SymbolDescriptor)
      = 100 := by
    unfold descriptor_distance list_dist
    norm_num [if_neg (show ¬(("CIRCLE" : String) = "LINE") from by decide),
      if_neg (show ¬(("ARC" : String) = "LINE") from by decide),
      if_neg (show ¬(("LWPOLYLINE" : String) = "LINE") from by decide),
      if_neg (show ¬(("POLYLINE" : String) = "LINE") from by decide),
      if_neg (show ¬(("INSERT" : String) = "LINE") from by decide)]
  have hcbr : chamfer_best_rotation [((0:ℝ), (0:ℝ))] [((0:ℝ), (0:ℝ))]
      [0, 90, 180, 270] true = (some 0, 0) :=
    cbr_self_zero [((0:ℝ), (0:ℝ))] [90, 180, 270] (by simp)
  unfold matchCluster
  dsimp only
  rw [List.filterMap_cons, List.filterMap_nil]
  dsimp only
  rw [hdd, if_pos (show (100:ℚ) ≤ 200 by norm_num)]
  dsimp only
  rw [if_neg (show ¬([((100:ℚ), "R")] = []) from by simp)]
  rw [show ([((100:ℚ), "R")].mergeSort (fun p q => decide (p.1 ≤ q.1)))
    = [((100:ℚ), "R")] from List.perm_singleton.mp (List.mergeSort_perm _ _)]
  rw [show List.take (max 1 1) [((100:ℚ), "R")] = [((100:ℚ), "R")] from rfl]
  rw [List.foldl_cons, List.foldl_nil]
  dsimp only
  rw [ACad.Lib.lookup_cons_self]
  dsimp only
  rw [hcbr]
  dsimp only
  rw [if_pos (show optLt (some (0:ℝ)) none from trivial)]
  dsimp only
  rw [if_neg (show ¬((some "R" = (none : Option String)) ∨ optGt (some (0:ℝ)) 1) from
    fun h => h.elim (fun h1 => Option.noConfusion h1)
      (fun h2 => absurd (show (1:ℝ) < 0 from h2) (by norm_num)))]

end ACad.SL
